import Mathlib

/-!
Verification development for the efibootdude boot-table editor
(`src/efibootdude/main.py`).

The Python source is shallowly embedded below:

* `BootEntry` / `BootModifications` mirror the dataclasses of the source.
* `digest_boots` embeds `EfiBootDude.digest_boots` (parse → table build).
* The `*_changed` functions embed `EfiBootDude.update_dirty_state`.
* `UserOp` / `stepOp` embed the per-key mutation bodies of
  `EfiBootDude.do_actions` / `EfiBootDude.do_key`.
* `write_cmds` embeds the command synthesis in `EfiBootDude.write`.

Python strings are modelled as `String` (manipulated through `List Char` so
that everything reduces in the kernel), Python sets of identifiers as
duplicate-free `List String` with extensional equality (`setEqb`), and Python
dicts as insertion-ordered association lists.  `Option Config` results model
Python runtime failures (indexing errors, unbound locals) as `none`.
-/

/-! ### Character classes and small string helpers (Python `str`/`re` on the
ASCII output of efibootmgr) -/

/-- Python `\s` (ASCII range, which is all that efibootmgr emits). -/

def isPySpace (c : Char) : Bool :=
  c = ' ' || c = '\t' || c = '\n' || c = '\r' || c = '\x0b' || c = '\x0c'

/-- Python `\w` (ASCII range). -/
def isWordChar (c : Char) : Bool := c.isAlphanum || c = '_'

/-- `[0-9a-f]` under `re.IGNORECASE`. -/
def isHexDigitChar (c : Char) : Bool :=
  c.isDigit || ('a' ≤ c && c ≤ 'f') || ('A' ≤ c && c ≤ 'F')

/-- Drop trailing characters satisfying `p`. -/
def dropTrailing (p : Char → Bool) (l : List Char) : List Char :=
  (l.reverse.dropWhile p).reverse

/-- Python `s.strip()`. -/
def pyStrip (s : String) : String :=
  String.mk (dropTrailing isPySpace (s.toList.dropWhile isPySpace))

/-- Python `s.split(maxsplit=1)`: first whitespace-delimited token, then the
remainder (which keeps its internal and trailing whitespace). -/
def pySplitMax1 (s : String) : List String :=
  let cs := s.toList.dropWhile isPySpace
  let key := cs.takeWhile (fun c => !isPySpace c)
  let rest := (cs.dropWhile (fun c => !isPySpace c)).dropWhile isPySpace
  if key = [] then []
  else if rest = [] then [String.mk key]
  else [String.mk key, String.mk rest]

/-- Python `s.split()[0]` as an `Option` (`none` when there is no token, in
which case Python would raise `IndexError`). -/
def pyFirstToken (s : String) : Option String :=
  let t := (s.toList.dropWhile isPySpace).takeWhile (fun c => !isPySpace c)
  if t = [] then none else some (String.mk t)

/-- Python `s.split(',')`. -/
def splitCommaAux (acc : List Char) : List Char → List String
  | [] => [String.mk acc.reverse]
  | c :: rest =>
    if c = ',' then String.mk acc.reverse :: splitCommaAux [] rest
    else splitCommaAux (c :: acc) rest

def splitComma (s : String) : List String := splitCommaAux [] s.toList

/-- Python `','.join`. -/
def joinComma : List String → String
  | [] => ""
  | [x] => x
  | x :: y :: rest => x ++ "," ++ joinComma (y :: rest)

/-- Python string truthiness (`if s:`). -/
def strTruthy (s : String) : Bool := !(s == "")

/-! ### Python `set` of identifier strings, modelled as a duplicate-free list
with extensional equality -/

/-- `s.add(x)`. -/
def setAdd (l : List String) (x : String) : List String :=
  if x ∈ l then l else l ++ [x]

/-- `s.discard(x)`. -/
def setDiscard (l : List String) (x : String) : List String :=
  l.filter (fun y => decide (y ≠ x))

/-- `s.update(t)`. -/
def setUnionL (a b : List String) : List String := b.foldl setAdd a

/-- `s.difference_update(t)`. -/
def setDiffL (a b : List String) : List String :=
  a.filter (fun y => decide (y ∉ b))

/-- Python `set` equality (extensional). -/
def setEqb (a b : List String) : Bool :=
  a.all (fun y => decide (y ∈ b)) && b.all (fun y => decide (y ∈ a))

/-! ### Data model (`BootEntry`, `BootModifications` dataclasses) -/

/-- `class BootEntry`: a boot entry or system info line from efibootmgr.
`active` is the string `"*"` or `""` exactly as in the source. -/
structure BootEntry where
  ident : String
  is_boot : Bool := false
  active : String := ""
  label : String := ""
  info1 : String := ""
  info2 : String := ""
  removed : Bool := false
deriving Repr, DecidableEq

/-- `class BootModifications`: pending modifications.  The `dirty` field of the
source is recomputed from scratch by `update_dirty_state` before every render;
it is therefore modelled as the function `dirtyState` below instead of a
stored field.  `tags` is a Python dict (insertion-ordered association list). -/
structure BootModifications where
  order : Bool := false
  timeout : Option String := none
  removes : List String := []
  tags : List (String × String) := []
  next : Option String := none
  actives : List String := []
  inactives : List String := []
deriving Repr, DecidableEq

/-- Python `tags[ident] = answer`: insert-or-update keeping first-insertion
position (dict semantics). -/
def updateTag (l : List (String × String)) (k v : String) : List (String × String) :=
  if l.any (fun p => p.1 = k) then
    l.map (fun p => if p.1 = k then (k, v) else p)
  else l ++ [(k, v)]

/-! ### Line parser (`digest_boots` regex matching) -/

/-- Result of the boot-option regex
`\bBoot([0-9a-f]+)\b(\*?)\s+(\S.*\S|\S)\s*\t\s*(\S.*\S|\S)\s*$`
(`re.IGNORECASE`): identifier (group 1), active marker (group 2), label
(group 3) and path-expression tail (group 4). -/
structure BootMatch where
  ident : String
  activeStar : String
  label : String
  tail : String
deriving Repr, DecidableEq

/-- `re.IGNORECASE` character comparison. -/
def lowerEq (a b : Char) : Bool := a.toLower = b.toLower

/-- Consume the optional `(\*?)` active marker (group 2). -/
def starSplit : List Char → String × List Char
  | '*' :: t => ("*", t)
  | r2 => ("", r2)

/-- `re.match` of the boot-option pattern above against one line.  Greedy
matching makes group 1 the maximal hex run (the following `\b` then requires a
non-word character), group 3 everything up to the last usable tab, and group 4
the remainder; surrounding `\s*` runs are stripped.  (`.` never has to cross an
embedded newline on efibootmgr's line-oriented output.) -/
def matchBoot (line : String) : Option BootMatch :=
  match line.toList with
  | c1 :: c2 :: c3 :: c4 :: rest =>
    if lowerEq c1 'b' && lowerEq c2 'o' && lowerEq c3 'o' && lowerEq c4 't' then
      let hex := rest.takeWhile isHexDigitChar
      let r2 := rest.dropWhile isHexDigitChar
      if hex = [] then none
      else if (r2.head?.map isWordChar).getD false then none
      else
        let sr := starSplit r2
        let star := sr.1
        let r3 := sr.2
        let ws := r3.takeWhile isPySpace
        let r4 := r3.dropWhile isPySpace
        if ws = [] then none
        else
          let rt := dropTrailing isPySpace r4
          if rt.contains '\t' then
            let afterRev := rt.reverse.takeWhile (fun c => decide (c ≠ '\t'))
            let beforeRev := rt.reverse.drop (afterRev.length + 1)
            let lbl := dropTrailing isPySpace beforeRev.reverse
            let tl := afterRev.reverse.dropWhile isPySpace
            if lbl = [] || tl = [] then none
            else some ⟨String.mk hex, star, String.mk lbl, String.mk tl⟩
          else none
    else none
  | _ => none

/-! #### Display-only path enrichment

The subpath regex `(?:/?\b\w*\(|/)(\\[^/()]+)(?:$|[()/])` and the UUID regex
`\b[0-9A-F]{8}-[0-9A-F]{4}-[0-9A-F]{4}-[0-9A-F]{4}-[0-9A-F]{12}\b` only feed
the display columns `info1`/`info2` (spec §3: "display-only, no further
algorithmic role").  They are embedded below; no claim depends on them. -/

def isSubDelim (c : Char) : Bool := c = '(' || c = ')' || c = '/'

/-- Capture `\\[^/()]+` starting at an absolute position `capPos`; returns
`(spanEnd, capture)`.  The trailing `(?:$|[()/])` consumes the delimiter. -/
def subCapture (capPos : Nat) : List Char → Option (Nat × List Char)
  | c :: more =>
    if c = '\\' then
      let run := more.takeWhile (fun d => !isSubDelim d)
      if run = [] then none
      else
        let stop := capPos + 1 + run.length
        if more.drop run.length = [] then some (stop, '\\' :: run)
        else some (stop + 1, '\\' :: run)
    else none
  | [] => none

/-- One attempt of the subpath regex at absolute position `pos` (suffix `l`,
previous character `prev`); returns `(spanStart, spanEnd, capture)`. -/
def subTryAt (prev : Option Char) (pos : Nat) (l : List Char) :
    Option (Nat × Nat × List Char) :=
  match l with
  | [] => none
  | c :: rest =>
    if c = '/' then
      -- `/\b\w*\(` needs at least one word char after the slash, then `(`.
      let run := rest.takeWhile isWordChar
      let alt1 :=
        if run = [] then none
        else match rest.drop run.length with
          | '(' :: more =>
            (subCapture (pos + 1 + run.length + 1) more).map
              (fun r => (pos, r.1, r.2))
          | _ => none
      -- otherwise the bare `/` alternative, capture follows directly
      alt1 <|> (subCapture (pos + 1) rest).map (fun r => (pos, r.1, r.2))
    else if isWordChar c && !((prev.map isWordChar).getD false) then
      -- `\b\w*\(` starting at a word-boundary word run
      let run := (c :: rest).takeWhile isWordChar
      match (c :: rest).drop run.length with
      | '(' :: more =>
        (subCapture (pos + run.length + 1) more).map (fun r => (pos, r.1, r.2))
      | _ => none
    else none

/-- Leftmost match of the subpath regex (`re.search`). -/
def subSearch (prev : Option Char) (pos : Nat) (l : List Char) :
    Option (Nat × Nat × List Char) :=
  match l with
  | [] => none
  | c :: rest => subTryAt prev pos (c :: rest) <|> subSearch (some c) (pos + 1) rest

/-- Lines 248–254 of the source: extract the `\...` subpath (plus a trailing
space, as in `mat.group(1) + ' '`) and delete the matched span from the tail. -/
def extractSubpath (tailCs : List Char) : String × List Char :=
  match subSearch none 0 tailCs with
  | none => ("", tailCs)
  | some (s, e, cap) => (String.mk cap ++ " ", tailCs.take s ++ tailCs.drop e)

/-- Exactly `n` hex digits. -/
def takeHexN : Nat → List Char → Option (List Char × List Char)
  | 0, l => some ([], l)
  | _ + 1, [] => none
  | n + 1, c :: rest =>
    if isHexDigitChar c then
      (takeHexN n rest).map (fun r => (c :: r.1, r.2))
    else none

/-- The 8-4-4-4-12 UUID shape at the head of `l`. -/
def matchUuidAt (l : List Char) : Option (List Char × List Char) := do
  let (a, l) ← takeHexN 8 l
  match l with
  | '-' :: l => do
    let (b, l) ← takeHexN 4 l
    match l with
    | '-' :: l => do
      let (c, l) ← takeHexN 4 l
      match l with
      | '-' :: l => do
        let (d, l) ← takeHexN 4 l
        match l with
        | '-' :: l => do
          let (e, l) ← takeHexN 12 l
          pure (a ++ '-' :: b ++ '-' :: c ++ '-' :: d ++ '-' :: e, l)
        | _ => none
      | _ => none
    | _ => none
  | _ => none

/-- `re.findall` of the UUID pattern (`SystemInfo.extract_uuids`); `fuel`
bounds the scan (callers pass the list length). -/
def findUuids : Nat → Option Char → List Char → List String
  | 0, _, _ => []
  | _ + 1, _, [] => []
  | fuel + 1, prev, c :: rest =>
    if !((prev.map isWordChar).getD false) then
      match matchUuidAt (c :: rest) with
      | some (u, l') =>
        -- `\b` after the last hex digit
        if (l'.head?.map isWordChar).getD false then
          findUuids fuel (some c) rest
        else
          String.mk u :: findUuids fuel u.getLast? l'
      | none => findUuids fuel (some c) rest
    else findUuids fuel (some c) rest

/-! ### Table builder (`digest_boots`) -/

/-- State threaded through the line loop of `digest_boots`: the in-progress
output `rv`, the captured `boot_order` string (`none` while unassigned — the
Python local is then still unbound), and the `boots` dict.  The presentation
maxima `width1`/`label_wid` have no algorithmic role and are not tracked. -/
structure DigState where
  rv : List BootEntry
  boot_order : Option String
  boots : List (String × BootEntry)
deriving Repr, DecidableEq

/-- The `boots[ns.ident] = ns` dict update (insert or overwrite in place). -/
def updateBoots (l : List (String × BootEntry)) (k : String) (v : BootEntry) :
    List (String × BootEntry) :=
  if l.any (fun p => p.1 = k) then
    l.map (fun p => if p.1 = k then (k, v) else p)
  else l ++ [(k, v)]

/-- Loop body of `digest_boots` for one input line (source lines 217–271). -/
def digestLine (sysUuids : List (String × String)) (st : DigState) (line : String) :
    DigState :=
  match pySplitMax1 line with
  | [key, info] =>
    if key = "BootOrder:" then { st with boot_order := some info }
    else
      match matchBoot line with
      | none =>
        let ns : BootEntry := { ident := key, label := info }
        if key = "BootNext:" && !st.rv.isEmpty then { st with rv := st.rv.set 0 ns }
        else { st with rv := st.rv ++ [ns] }
      | some m =>
        let sp := extractSubpath m.tail.toList
        let subpath := sp.1
        let other := String.mk sp.2
        let us := findUuids (sp.2.length + 1) none sp.2
        let device :=
          ((us.find? (fun u => strTruthy u && (List.lookup u sysUuids).isSome)).bind
            (fun u => List.lookup u sysUuids)).getD ""
        let infos : String × String :=
          if strTruthy device then
            (device, if strTruthy subpath then subpath else other)
          else if strTruthy subpath then (subpath, other)
          else (other, "")
        let ns : BootEntry :=
          { ident := m.ident, is_boot := true, active := m.activeStar,
            label := m.label, info1 := infos.1, info2 := infos.2 }
        { st with boots := updateBoots st.boots m.ident ns }
  | _ => st

/-- Lines 277–279: `for ident in boot_order.split(','): if ident in boots:
rv.append(boots.pop(ident))`.  Returns the picked entries and the leftover
dict. -/
def applyBootOrder (order : List String) (boots : List (String × BootEntry)) :
    List BootEntry × List (String × BootEntry) :=
  match order with
  | [] => ([], boots)
  | id :: rest =>
    match boots.find? (fun p => p.1 = id) with
    | some p =>
      let r := applyBootOrder rest (boots.filter (fun q => decide (q.1 ≠ id)))
      (p.2 :: r.1, r.2)
    | none => applyBootOrder rest boots

/-- `EfiBootDude.digest_boots`: parse the raw `efibootmgr` lines (prefixed by
the synthetic `BootNext: ---` seed) into the entry table, returning the table
together with `boot_idx`.  The result is `none` when no `BootOrder:` line was
seen: the Python local `boot_order` is then unbound and line 277 raises
`UnboundLocalError`. -/
def digest_boots (sysUuids : List (String × String)) (lines : List String) :
    Option (List BootEntry × Nat) :=
  let st := ("BootNext: ---" :: lines).foldl (digestLine sysUuids)
    ⟨[], none, []⟩
  match st.boot_order with
  | none => none
  | some bo =>
    let r := applyBootOrder (splitComma bo) st.boots
    some (st.rv ++ r.1 ++ r.2.map Prod.snd, st.rv.length)

/-! ### Session state and dirty reconciliation (`update_dirty_state`) -/

/-- The mutable session state: `original_entries` (`orig`), `boot_entries`
(`entries`), `boot_idx` and the pending `mods`.  The cursor `win.pick_pos` is
passed to each operation as an explicit index instead. -/
structure Config where
  orig : List BootEntry
  entries : List BootEntry
  boot_idx : Nat
  mods : BootModifications
deriving Repr, DecidableEq

/-- `original_order = [ns.ident for ns in self.original_entries if ns.is_boot]` -/
def original_order (c : Config) : List String :=
  (c.orig.filter (fun e => e.is_boot)).map (fun e => e.ident)

/-- `current_order = [ns.ident for ns in self.boot_entries if ns.is_boot and not ns.removed]` -/
def current_order (c : Config) : List String :=
  (c.entries.filter (fun e => e.is_boot && !e.removed)).map (fun e => e.ident)

/-- `order_changed = (self.mods.order and current_order != original_order)` -/
def order_changed (c : Config) : Bool :=
  c.mods.order && decide (current_order c ≠ original_order c)

/-- `original_actives = {ns.ident for ns in self.original_entries if ns.is_boot and ns.active}` -/
def original_actives (c : Config) : List String :=
  (c.orig.filter (fun e => e.is_boot && strTruthy e.active)).map (fun e => e.ident)

/-- `current_actives = {ns.ident for ns in self.boot_entries if ns.is_boot and ns.active}` -/
def current_actives (c : Config) : List String :=
  (c.entries.filter (fun e => e.is_boot && strTruthy e.active)).map (fun e => e.ident)

/-- `simulated_actives`: current actives updated with pending activations and
stripped of pending deactivations (lines 303–305). -/
def simulated_actives (c : Config) : List String :=
  setDiffL (setUnionL (current_actives c) c.mods.actives) c.mods.inactives

/-- Lines 300–306: pending active changes exist and the simulated set differs
from the original active set. -/
def actives_changed (c : Config) : Bool :=
  (!c.mods.actives.isEmpty || !c.mods.inactives.isEmpty) &&
    !setEqb (simulated_actives c) (original_actives c)

/-- `original_timeout = next((ns.label for ... if ns.ident == 'Timeout:'), None)` -/
def original_timeout (c : Config) : Option String :=
  (c.orig.find? (fun e => e.ident = "Timeout:")).map (fun e => e.label)

/-- `original_timeout_val = original_timeout.split()[0] if original_timeout
else None` (a whitespace-only original label would raise `IndexError` in
Python; that untypable corner is modelled as `none`). -/
def original_timeout_val (c : Config) : Option String :=
  match original_timeout c with
  | some l => if strTruthy l then pyFirstToken l else none
  | none => none

/-- Lines 309–313. -/
def timeout_changed (c : Config) : Bool :=
  match c.mods.timeout with
  | some t => decide (some t ≠ original_timeout_val c)
  | none => false

/-- `original_next = next((ns.label for ... if ns.ident == 'BootNext:'), None)` -/
def original_next (c : Config) : Option String :=
  (c.orig.find? (fun e => e.ident = "BootNext:")).map (fun e => e.label)

/-- Lines 316–318. -/
def next_changed (c : Config) : Bool :=
  match c.mods.next with
  | some nx => decide (some nx ≠ original_next c)
  | none => false

/-- `removals_changed = bool(self.mods.removes)` -/
def removals_changed (c : Config) : Bool := !c.mods.removes.isEmpty

/-- `tags_changed = bool(self.mods.tags)` -/
def tags_changed (c : Config) : Bool := !c.mods.tags.isEmpty

/-- `update_dirty_state`'s final `self.mods.dirty` (lines 325–332). -/
def dirtyState (c : Config) : Bool :=
  order_changed c || actives_changed c || timeout_changed c ||
    next_changed c || removals_changed c || tags_changed c

/-! ### Mutation operations (`do_actions` / `do_key`)

Each operation receives the cursor position `i` (`self.win.pick_pos`).  A
`none` result models a Python runtime error (indexing an out-of-range cursor,
or driving an untyped `None` into a string field). -/

/-- The `up` action (lines 639–646). -/
def upOp (c : Config) (i : Nat) : Option Config :=
  match c.entries.get? i with
  | none => none
  | some e =>
    if e.is_boot && !e.removed then
      match c.entries.get? (i - 1) with
      | some p =>
        if decide (c.boot_idx < i) && !p.removed then
          some { c with
            entries := (c.entries.set (i - 1) e).set i p,
            mods := { c.mods with order := true } }
        else some c
      | none => some c
    else some c

/-- The `down` action (lines 648–655). -/
def downOp (c : Config) (i : Nat) : Option Config :=
  match c.entries.get? i with
  | none => none
  | some e =>
    if e.is_boot && !e.removed then
      match c.entries.get? (i + 1) with
      | some nxt =>
        if !nxt.removed then
          some { c with
            entries := (c.entries.set (i + 1) e).set i nxt,
            mods := { c.mods with order := true } }
        else some c
      | none => some c
    else some c

/-- The `star` action (lines 696–706): toggle the active flag and track the
identifier in the opposing pending sets. -/
def starOp (c : Config) (i : Nat) : Option Config :=
  match c.entries.get? i with
  | none => none
  | some e =>
    if e.is_boot then
      if strTruthy e.active then
        some { c with
          entries := c.entries.set i { e with active := "" },
          mods := { c.mods with
            actives := setDiscard c.mods.actives e.ident,
            inactives := setAdd c.mods.inactives e.ident } }
      else
        some { c with
          entries := c.entries.set i { e with active := "*" },
          mods := { c.mods with
            actives := setAdd c.mods.actives e.ident,
            inactives := setDiscard c.mods.inactives e.ident } }
    else some c

/-- Lines 715–720: the index of the first removed boot entry at or beyond
`boot_idx`, other than the cursor position, or the list length when there is
none (the restore insertion point before adjustment). -/
def restoreCand (entries0 : List BootEntry) (bootIdx i : Nat) (j : Nat) : Bool :=
  decide (bootIdx ≤ j) &&
  (match entries0.get? j with
   | some f => f.is_boot && f.removed && decide (j ≠ i)
   | none => false)

def restoreInsertPos (entries0 : List BootEntry) (bootIdx i : Nat) : Nat :=
  match ((List.range entries0.length).filter (restoreCand entries0 bootIdx i)).head? with
  | some j => j
  | none => entries0.length

/-- The `remove` action (lines 708–742): un-remove when already removed,
otherwise mark for removal and move to the bottom. -/
def removeOp (c : Config) (i : Nat) : Option Config :=
  match c.entries.get? i with
  | none => none
  | some e =>
    if e.is_boot then
      if e.removed then
        let e' := { e with removed := false }
        let entries0 := c.entries.set i e'
        let insert_pos := restoreInsertPos entries0 c.boot_idx i
        let popped := entries0.eraseIdx i
        let adjusted := if i < insert_pos then insert_pos - 1 else insert_pos
        some { c with
          entries := popped.insertIdx adjusted e',
          mods := { c.mods with
            removes := setDiscard c.mods.removes e.ident,
            order := true } }
      else
        let e' := { e with removed := true }
        some { c with
          entries := c.entries.eraseIdx i ++ [e'],
          mods := { c.mods with
            removes := setAdd c.mods.removes e.ident,
            actives := setDiscard c.mods.actives e.ident,
            inactives := setDiscard c.mods.inactives e.ident,
            order := true } }
    else some c

/-- The `next` action (lines 657–694): cycle the `BootNext:` line's value, or
set the current boot entry as next boot.  In the wrap-back branch Python
assigns `original_next` — which is `None` when the snapshot had no
`BootNext:` entry — into the label; that untyped state is modelled as
`none`. -/
def nextOp (c : Config) (i : Nat) : Option Config :=
  match c.entries.get? i with
  | none => none
  | some e =>
    if e.ident = "BootNext:" then
      let orig_next := original_next c
      let bootIds := (c.entries.filter (fun b => b.is_boot)).map (fun b => b.ident)
      match bootIds with
      | [] => some c
      | b0 :: _ =>
        let current := e.label
        let next_ident : Option String :=
          if decide (some current = orig_next) || current = "---" then some b0
          else if current ∈ bootIds then
            let idx := bootIds.indexOf current
            if idx + 1 < bootIds.length then bootIds.get? (idx + 1)
            else orig_next
          else some b0
        match next_ident with
        | some nid =>
          some { c with
            entries := c.entries.set i { e with label := nid },
            mods := { c.mods with
              next := if decide (some nid ≠ orig_next) then some nid else none } }
        | none => none
    else if e.is_boot then
      match c.entries with
      | [] => none
      | e0 :: rest =>
        some { c with
          entries := { e0 with label := e.ident } :: rest,
          mods := { c.mods with next := some e.ident } }
    else some c

/-- The `tag` action (lines 744–756) for one prompt answer: a valid label
(`([\w\s])+$` after stripping) is applied, anything else leaves the state
unchanged (Python re-prompts). -/
def tagOp (c : Config) (i : Nat) (answer : String) : Option Config :=
  match c.entries.get? i with
  | none => none
  | some e =>
    if e.is_boot then
      let a := pyStrip answer
      if a = "" then some c
      else if a.toList.all (fun ch => isWordChar ch || isPySpace ch) then
        some { c with
          entries := c.entries.set i { e with label := a },
          mods := { c.mods with tags := updateTag c.mods.tags e.ident a } }
      else some c
    else some c

/-- The `m` (modify timeout) key (lines 578–592) for one prompt answer: on the
`Timeout:` line a stripped all-digits answer sets the label to `"<n> seconds"`
and records the numeric override; an empty answer aborts and any other answer
re-prompts (state unchanged either way).  Computing the prompt seed
`ns.label.split()[0]` raises `IndexError` when the label has no token
(modelled as `none`). -/
def modTimeoutOp (c : Config) (i : Nat) (answer : String) : Option Config :=
  match c.entries.get? i with
  | none => none
  | some e =>
    if e.ident = "Timeout:" then
      match pyFirstToken e.label with
      | none => none
      | some _ =>
        let a := pyStrip answer
        if a = "" then some c
        else if a ≠ "" && a.toList.all (fun ch => ch.isDigit) then
          some { c with
            entries := c.entries.set i { e with label := a ++ " seconds" },
            mods := { c.mods with timeout := some a } }
        else some c
    else some c

/-- The table-mutating user actions. -/
inductive UserOp where
  | up (i : Nat)
  | down (i : Nat)
  | star (i : Nat)
  | remove (i : Nat)
  | bootNext (i : Nat)
  | tag (i : Nat) (answer : String)
  | modTimeout (i : Nat) (answer : String)
deriving Repr, DecidableEq

def stepOp (c : Config) : UserOp → Option Config
  | .up i => upOp c i
  | .down i => downOp c i
  | .star i => starOp c i
  | .remove i => removeOp c i
  | .bootNext i => nextOp c i
  | .tag i a => tagOp c i a
  | .modTimeout i a => modTimeoutOp c i a

def runOps (c : Config) : List UserOp → Option Config
  | [] => some c
  | op :: rest => (stepOp c op).bind (fun c' => runOps c' rest)

/-- The session state right after `reinit` (lines 186–197): the snapshot is a
deep copy of the freshly digested table and no modification is pending. -/
def initConfig (tbl : List BootEntry) (idx : Nat) : Config :=
  { orig := tbl, entries := tbl, boot_idx := idx, mods := {} }

/-- Iterate a possibly-failing operation. -/
def iterOpt (f : Config → Option Config) : Nat → Config → Option Config
  | 0, c => some c
  | n + 1, c => (f c).bind (iterOpt f n)

/-! ### Command synthesizer (`EfiBootDude.write`, lines 404–425) -/

/-- The command list printed by `write` (the function returns immediately when
nothing is dirty). -/
def write_cmds (c : Config) : List String :=
  if !dirtyState c then []
  else
    let pfx := "sudo efibootmgr --quiet"
    let cmds := c.mods.removes.map
      (fun ident => pfx ++ " --delete-bootnum --bootnum " ++ ident)
    let cmds := cmds ++ c.mods.actives.map
      (fun ident => pfx ++ " --active --bootnum " ++ ident)
    let cmds := cmds ++ c.mods.inactives.map
      (fun ident => pfx ++ " --inactive --bootnum " ++ ident)
    let cmds := cmds ++ c.mods.tags.map
      (fun p => pfx ++ " --bootnum " ++ p.1 ++ " --label \"" ++ p.2 ++ "\"")
    let cmds := cmds ++
      (if c.mods.order then
        [pfx ++ " --bootorder " ++ joinComma (current_order c)]
       else [])
    let cmds := cmds ++
      (match c.mods.next with
       | some nx => if strTruthy nx then [pfx ++ " --bootnext " ++ nx] else []
       | none => [])
    let cmds := cmds ++
      (match c.mods.timeout with
       | some t => if strTruthy t then [pfx ++ " --timeout " ++ t] else []
       | none => [])
    cmds

/-! ### Decidable table invariants (used to state reachability hypotheses) -/

/-- All removed rows sit at the bottom of the table: whenever a row is
removed, every later row is removed too. -/
def suffixRemoved (entries : List BootEntry) : Bool :=
  (List.range entries.length).all (fun j =>
    (List.range entries.length).all (fun k =>
      !(decide (j ≤ k)) ||
      (match entries.get? j, entries.get? k with
       | some f, some g => !f.removed || g.removed
       | _, _ => true)))

/-- Only boot-option rows are ever marked removed. -/
def removedAreBoot (entries : List BootEntry) : Bool :=
  entries.all (fun f => !f.removed || f.is_boot)

/-- Boot-option rows only occur at positions `≥ bootIdx`. -/
def bootsAfterIdx (entries : List BootEntry) (bootIdx : Nat) : Bool :=
  (List.range entries.length).all (fun j =>
    match entries.get? j with
    | some f => !f.is_boot || decide (bootIdx ≤ j)
    | none => true)

/-- A small concrete session used by the witnesses: two boot options, the
first active. -/
def tblW : List BootEntry :=
  [{ ident := "BootNext:", label := "---" },
   { ident := "Timeout:", label := "5 seconds" },
   { ident := "0001", is_boot := true, active := "*", label := "A" },
   { ident := "0002", is_boot := true, label := "B" }]

def cfgW : Config := initConfig tblW 2

def cfgW1 : Config := (starOp cfgW 2).getD cfgW

def cfgW2 : Config := (starOp cfgW1 2).getD cfgW

def cfgW3 : Config := (upOp cfgW 3).getD cfgW

def cfgW4 : Config := (downOp cfgW3 2).getD cfgW

/-! ### Claim C3: a missing `BootOrder:` line crashes the parse -/

/-- A line that assigns the `boot_order` local: at least two
whitespace-separated tokens and first token `BootOrder:` (source lines
217–224). -/
def isBootOrderLine (l : String) : Bool :=
  match pySplitMax1 l with
  | [key, _] => key = "BootOrder:"
  | _ => false

/-- Number of entries carrying identifier `k`. -/
def countIdent (l : List BootEntry) (k : String) : Nat :=
  (l.filter (fun e => e.ident = k)).length

/-- Invariant of the `digest_boots` line loop after the synthetic seed: `rv`
holds the system-field entries with the (unique) `BootNext:` placeholder at
position 0, and `boots` is a well-formed dict of boot options keyed by their
hex identifiers. -/
structure DigInv (st : DigState) : Prop where
  rv_ne : st.rv ≠ []
  head_bn : ∃ lbl, st.rv.head? = some { ident := "BootNext:", label := lbl }
  bn_count : countIdent st.rv "BootNext:" = 1
  rv_flags : ∀ e ∈ st.rv, e.is_boot = false ∧ e.removed = false
  boots_wf : ∀ p ∈ st.boots, p.2.ident = p.1 ∧
      p.1.toList.all isHexDigitChar = true ∧ p.2.is_boot = true ∧
      p.2.removed = false
  boots_nodup : (st.boots.map Prod.fst).Nodup

/-- A line that appends a `Timeout:` system entry: two tokens with first
token `Timeout:`. -/
def isTimeoutLine (l : String) : Bool :=
  match pySplitMax1 l with
  | [key, _] => key = "Timeout:"
  | _ => false

def linesW1 : List String :=
  ["BootOrder: 0001,0002", "Boot0001* A\tHD(1)", "Boot0002 B\tHD(2)",
   "BootNext: 0002", "Timeout: 5 seconds"]

def tblW1 : List BootEntry := ((digest_boots [] linesW1).getD ([], 0)).1

def idxW1 : Nat := ((digest_boots [] linesW1).getD ([], 0)).2

def linesW2 : List String := ["BootOrder: 0001", "Boot0001* A\tHD(1)"]

def tblW2 : List BootEntry := ((digest_boots [] linesW2).getD ([], 0)).1

def idxW2 : Nat := ((digest_boots [] linesW2).getD ([], 0)).2

/-- The index-0 invariant: a non-boot `BootNext:` entry heads the table and
the system prefix is non-trivial. -/
def headBootNext (c : Config) : Prop :=
  (∃ e0, c.entries.head? = some e0 ∧ e0.ident = "BootNext:" ∧
    e0.is_boot = false) ∧ 1 ≤ c.boot_idx

def cfgW10 : Config :=
  (runOps (initConfig tblW1 idxW1) [UserOp.remove 3, UserOp.star 2]).getD
    (initConfig tblW1 idxW1)

def eW6 : BootEntry :=
  { ident := "0001", is_boot := true, active := "*", label := "A",
    info1 := "HD(1)", info2 := "", removed := false }

def cfgW6 : Config := initConfig tblW1 idxW1

def cfgW6a : Config := (removeOp cfgW6 2).getD cfgW6

def cfgW6b : Config :=
  (removeOp cfgW6a (cfgW6.entries.length - 1)).getD cfgW6

def bootIdents (c : Config) : List String :=
  (c.entries.filter (fun b => b.is_boot)).map (fun b => b.ident)

def cycleState (c : Config) (e0 : BootEntry) (rest : List BootEntry)
    (lab : String) (nx : Option String) : Config :=
  { c with
    entries := { e0 with label := lab } :: rest,
    mods := { c.mods with next := nx } }

def tblW7 : List BootEntry :=
  [{ ident := "BootNext:", is_boot := false, active := "", label := "0002",
     info1 := "", info2 := "", removed := false },
   { ident := "0001", is_boot := true, active := "*", label := "A",
     info1 := "", info2 := "", removed := false },
   { ident := "0002", is_boot := true, active := "", label := "B",
     info1 := "", info2 := "", removed := false }]

def cfgW7 : Config := initConfig tblW7 1

def e0W7 : BootEntry :=
  { ident := "BootNext:", is_boot := false, active := "", label := "---",
    info1 := "", info2 := "", removed := false }

def restW7 : List BootEntry :=
  [{ ident := "0001", is_boot := true, active := "*", label := "A",
     info1 := "", info2 := "", removed := false },
   { ident := "0002", is_boot := true, active := "", label := "B",
     info1 := "", info2 := "", removed := false }]

def cfgW7b : Config := initConfig (e0W7 :: restW7) 1

/-- The spec's description of the synthesized command list: seven fixed
categories in order, with literal flag strings. -/
def specWriteCmds (c : Config) : List String :=
  c.mods.removes.map
    (fun ident => "sudo efibootmgr --quiet --delete-bootnum --bootnum " ++ ident) ++
  c.mods.actives.map
    (fun ident => "sudo efibootmgr --quiet --active --bootnum " ++ ident) ++
  c.mods.inactives.map
    (fun ident => "sudo efibootmgr --quiet --inactive --bootnum " ++ ident) ++
  c.mods.tags.map
    (fun p => "sudo efibootmgr --quiet --bootnum " ++ p.1 ++
      " --label \"" ++ p.2 ++ "\"") ++
  (if c.mods.order then
    ["sudo efibootmgr --quiet --bootorder " ++ joinComma (current_order c)]
   else []) ++
  (match c.mods.next with
   | some nx =>
     if strTruthy nx then ["sudo efibootmgr --quiet --bootnext " ++ nx] else []
   | none => []) ++
  (match c.mods.timeout with
   | some t =>
     if strTruthy t then ["sudo efibootmgr --quiet --timeout " ++ t] else []
   | none => [])

def cfgW8 : Config :=
  { orig :=
      [{ ident := "BootNext:", is_boot := false, active := "",
         label := "---", info1 := "", info2 := "", removed := false }],
    entries :=
      [{ ident := "BootNext:", is_boot := false, active := "",
         label := "0004", info1 := "", info2 := "", removed := false },
       { ident := "0001", is_boot := true, active := "*", label := "A",
         info1 := "", info2 := "", removed := false },
       { ident := "0002", is_boot := true, active := "", label := "B",
         info1 := "", info2 := "", removed := false },
       { ident := "0005", is_boot := true, active := "", label := "E",
         info1 := "", info2 := "", removed := true }],
    boot_idx := 1,
    mods :=
      { order := true, timeout := some "7", removes := ["0005"],
        actives := ["0001"], inactives := ["0002"],
        tags := [("0002", "New Label")], next := some "0004" } }

def eW9 : BootEntry :=
  { ident := "Timeout:", is_boot := false, active := "",
    label := "5 seconds", info1 := "", info2 := "", removed := false }

def cfgW9 : Config :=
  initConfig [eW9,
    { ident := "0001", is_boot := true, active := "*", label := "A",
      info1 := "", info2 := "", removed := false }] 1

/-- One `dict` insertion at the key level. -/
def insKey (ks : List String) (k : String) : List String :=
  if k ∈ ks then ks else ks ++ [k]

/-- The boot-option identifiers parsed from the raw lines, in encounter
order (one occurrence per matching line). -/
def parsedBootIdents (lines : List String) : List String :=
  lines.filterMap (fun line =>
    match pySplitMax1 line with
    | [key, _] =>
      if key = "BootOrder:" then none
      else
        match matchBoot line with
        | none => none
        | some m => some m.ident
    | _ => none)

/-- Keep the first occurrence of every element, dropping later duplicates. -/
def dedupFirst : List String → List String
  | [] => []
  | x :: xs => x :: (dedupFirst xs).filter (fun y => decide (y ≠ x))

/-- The loop state after digesting the seeded input lines. -/
def stFold (sysUuids : List (String × String)) (lines : List String) :
    DigState :=
  ("BootNext: ---" :: lines).foldl (digestLine sysUuids) ⟨[], none, []⟩

def linesW5 : List String :=
  ["BootOrder: 0002,0009", "Boot0001* A\tHD(1)", "Boot0002 B\tHD(2)"]

def tblW5 : List BootEntry := ((digest_boots [] linesW5).getD ([], 0)).1

def idxW5 : Nat := ((digest_boots [] linesW5).getD ([], 0)).2

/-! ### Helper lemmas about the Python-set model -/

theorem mem_setAdd {l : List String} {x y : String} :
    y ∈ setAdd l x ↔ y ∈ l ∨ y = x := by
  by_cases h : x ∈ l
  · simp only [setAdd, if_pos h]
    exact ⟨Or.inl, fun hy => hy.elim id (fun hyx => hyx ▸ h)⟩
  · simp [setAdd, if_neg h]

theorem mem_setDiscard {l : List String} {x y : String} :
    y ∈ setDiscard l x ↔ y ∈ l ∧ y ≠ x := by
  simp [setDiscard, List.mem_filter]

theorem mem_setUnionL {a b : List String} {y : String} :
    y ∈ setUnionL a b ↔ y ∈ a ∨ y ∈ b := by
  induction b generalizing a with
  | nil => simp [setUnionL]
  | cons b0 bs ih =>
    show y ∈ setUnionL (setAdd a b0) bs ↔ _
    rw [ih, mem_setAdd]
    simp [or_assoc]

theorem mem_setDiffL {a b : List String} {y : String} :
    y ∈ setDiffL a b ↔ y ∈ a ∧ y ∉ b := by
  simp [setDiffL, List.mem_filter]

theorem setEqb_iff {a b : List String} :
    setEqb a b = true ↔ ∀ y, y ∈ a ↔ y ∈ b := by
  simp only [setEqb, Bool.and_eq_true, List.all_eq_true, decide_eq_true_eq]
  constructor
  · rintro ⟨h1, h2⟩ y
    exact ⟨fun hy => h1 y hy, fun hy => h2 y hy⟩
  · intro h
    exact ⟨fun y hy => (h y).mp hy, fun y hy => (h y).mpr hy⟩

/-- Replacing a list element by one with the same filter-status and the same
image under `f` does not change the filtered image. -/
theorem filter_map_set_congr {α β : Type} (p : α → Bool) (f : α → β)
    (l : List α) (i : Nat) (a b : α)
    (h : l.get? i = some a) (hp : p b = p a) (hf : f b = f a) :
    ((l.set i b).filter p).map f = (l.filter p).map f := by
  induction l generalizing i with
  | nil => simp at h
  | cons hd tl ih =>
    cases i with
    | zero =>
      simp only [List.get?] at h
      injection h with h
      subst h
      simp only [List.set]
      by_cases hq : p hd
      · rw [List.filter_cons_of_pos (by rw [hp]; exact hq),
          List.filter_cons_of_pos hq]
        simp [hf]
      · rw [List.filter_cons_of_neg (by rw [hp]; simpa using hq),
          List.filter_cons_of_neg (by simpa using hq)]
    | succ j =>
      simp only [List.get?] at h
      simp only [List.set]
      by_cases hq : p hd
      · rw [List.filter_cons_of_pos hq, List.filter_cons_of_pos hq]
        simp only [List.map_cons]
        rw [ih j h]
      · rw [List.filter_cons_of_neg (by simpa using hq),
          List.filter_cons_of_neg (by simpa using hq)]
        exact ih j h

/-- An inactive boot entry's identifier is not among the current actives, as
long as boot identifiers are duplicate-free. -/
theorem ident_not_mem_actives_of_inactive
    (l : List BootEntry) (i : Nat) (e : BootEntry)
    (hget : l.get? i = some e) (hboot : e.is_boot = true)
    (hinact : strTruthy e.active = false)
    (hnodup : ((l.filter (fun b => b.is_boot)).map (fun b => b.ident)).Nodup) :
    e.ident ∉ ((l.filter (fun b => b.is_boot && strTruthy b.active)).map
      (fun b => b.ident)) := by
  induction l generalizing i with
  | nil => simp at hget
  | cons hd tl ih =>
    have hsub : ∀ x, x ∈ ((tl.filter (fun b => b.is_boot && strTruthy b.active)).map
        (fun b => b.ident)) →
        x ∈ ((tl.filter (fun b => b.is_boot)).map (fun b => b.ident)) := by
      intro x hx
      rcases List.mem_map.mp hx with ⟨b, hb, rfl⟩
      rcases List.mem_filter.mp hb with ⟨hbm, hbp⟩
      exact List.mem_map.mpr ⟨b, List.mem_filter.mpr
        ⟨hbm, (Bool.and_eq_true _ _).mp hbp |>.1⟩, rfl⟩
    cases i with
    | zero =>
      simp only [List.get?] at hget
      injection hget with hget
      subst hget
      rw [List.filter_cons_of_neg (by simp [hboot, hinact])]
      rw [List.filter_cons_of_pos (by simpa using hboot)] at hnodup
      simp only [List.map_cons, List.nodup_cons] at hnodup
      exact fun hx => hnodup.1 (hsub _ hx)
    | succ j =>
      simp only [List.get?] at hget
      have hmemtl : e.ident ∈ ((tl.filter (fun b => b.is_boot)).map
          (fun b => b.ident)) := by
        have : e ∈ tl := List.get?_mem hget
        exact List.mem_map.mpr ⟨e, List.mem_filter.mpr ⟨this, by simpa using hboot⟩, rfl⟩
      by_cases hq : hd.is_boot
      · rw [List.filter_cons_of_pos (by simpa using hq)] at hnodup
        simp only [List.map_cons, List.nodup_cons] at hnodup
        by_cases hq2 : (hd.is_boot && strTruthy hd.active) = true
        · have hfc : List.filter (fun b => b.is_boot && strTruthy b.active) (hd :: tl)
              = hd :: List.filter (fun b => b.is_boot && strTruthy b.active) tl :=
            List.filter_cons_of_pos hq2
          rw [hfc]
          simp only [List.map_cons, List.mem_cons]
          rintro (h | h)
          · exact hnodup.1 (h ▸ hmemtl)
          · exact ih j hget hnodup.2 h
        · have hfc : List.filter (fun b => b.is_boot && strTruthy b.active) (hd :: tl)
              = List.filter (fun b => b.is_boot && strTruthy b.active) tl :=
            List.filter_cons_of_neg (by simpa using hq2)
          rw [hfc]
          exact ih j hget hnodup.2
      · rw [List.filter_cons_of_neg (by simpa using hq)] at hnodup
        rw [List.filter_cons_of_neg (by simp [hq])]
        exact ih j hget hnodup

/-- The current actives are unchanged when an entry is overwritten by one with
the same identifier and the same boot/active classification. -/
theorem current_actives_set_congr (c : Config) (i : Nat) (a b : BootEntry)
    (h : c.entries.get? i = some a)
    (hp : (b.is_boot && strTruthy b.active) = (a.is_boot && strTruthy a.active))
    (hid : b.ident = a.ident) :
    current_actives { c with entries := c.entries.set i b } = current_actives c :=
  filter_map_set_congr _ _ c.entries i a b h hp hid

/-- A boot entry's identifier is among the current actives when its flag is
set. -/
theorem ident_mem_actives_of_active (l : List BootEntry) (i : Nat) (e : BootEntry)
    (hget : l.get? i = some e) (hboot : e.is_boot = true)
    (hact : strTruthy e.active = true) :
    e.ident ∈ ((l.filter (fun b => b.is_boot && strTruthy b.active)).map
      (fun b => b.ident)) :=
  List.mem_map.mpr ⟨e, List.mem_filter.mpr
    ⟨List.get?_mem hget, by simp [hboot, hact]⟩, rfl⟩

theorem get?_set_self {α : Type} (l : List α) (i : Nat) (a b : α)
    (h : l.get? i = some a) : (l.set i b).get? i = some b := by
  rw [List.get?_set_eq, h]; rfl

/-- Reduction of `starOp` on an active boot entry. -/
theorem starOp_active (c : Config) (i : Nat) (e : BootEntry)
    (hget : c.entries.get? i = some e) (hboot : e.is_boot = true)
    (hA : strTruthy e.active = true) :
    starOp c i = some { c with
      entries := c.entries.set i { e with active := "" },
      mods := { c.mods with
        actives := setDiscard c.mods.actives e.ident,
        inactives := setAdd c.mods.inactives e.ident } } := by
  simp only [starOp, hget, hboot, hA, if_true]

/-- Reduction of `starOp` on an inactive boot entry. -/
theorem starOp_inactive (c : Config) (i : Nat) (e : BootEntry)
    (hget : c.entries.get? i = some e) (hboot : e.is_boot = true)
    (hA : strTruthy e.active = false) :
    starOp c i = some { c with
      entries := c.entries.set i { e with active := "*" },
      mods := { c.mods with
        actives := setAdd c.mods.actives e.ident,
        inactives := setDiscard c.mods.inactives e.ident } } := by
  simp only [starOp, hget, hboot, hA, if_true, Bool.false_eq_true, if_false]

/-- **C1.**  Toggling the active flag of a boot entry twice in succession via
the `star` operation leaves the active-set dirty category false: whatever the
intermediate state, the simulated active set (current actives plus pending
activations minus pending deactivations, source lines 296–306) again coincides
with the snapshot's original active set.  The hypotheses state that boot
identifiers are duplicate-free, that the pending sets are consistent with the
working flags (every reachable state satisfies this), and that the active-set
category is clean before the double toggle. -/
theorem C1_active_double_toggle_not_dirty
    (c c1 c2 : Config) (i : Nat) (e : BootEntry)
    (hget : c.entries.get? i = some e)
    (hboot : e.is_boot = true)
    (hnodup : ((c.entries.filter (fun b => b.is_boot)).map (fun b => b.ident)).Nodup)
    (hact : ∀ x ∈ c.mods.actives, x ∈ current_actives c)
    (hinact : ∀ x ∈ c.mods.inactives, x ∉ current_actives c)
    (hclean : setEqb (simulated_actives c) (original_actives c) = true)
    (h1 : starOp c i = some c1)
    (h2 : starOp c1 i = some c2) :
    actives_changed c2 = false := by
  have hclean' := setEqb_iff.mp hclean
  by_cases hA : strTruthy e.active = true
  · rw [starOp_active c i e hget hboot hA] at h1
    injection h1 with h1
    subst h1
    rw [starOp_inactive _ i { e with active := "" }
        (get?_set_self c.entries i e _ hget) hboot rfl] at h2
    injection h2 with h2
    subst h2
    simp only [actives_changed]
    apply Bool.and_eq_false_iff.mpr
    right
    rw [Bool.not_eq_false']
    rw [setEqb_iff]
    intro y
    simp only [simulated_actives, current_actives, original_actives, List.set_set]
    have hp1 : (({ e with active := "*" } : BootEntry).is_boot &&
        strTruthy ({ e with active := "*" } : BootEntry).active) =
        (e.is_boot && strTruthy e.active) := by
      show (e.is_boot && strTruthy "*") = _
      rw [hA, show strTruthy "*" = true from rfl]
    rw [filter_map_set_congr (fun b => b.is_boot && strTruthy b.active)
      (fun b => b.ident) c.entries i e { e with active := "*" } hget hp1
      (show ({ e with active := "*" } : BootEntry).ident = e.ident from rfl)]
    simp only [mem_setDiffL, mem_setUnionL]
    by_cases hyx : y = e.ident
    · subst hyx
      have hxcur : e.ident ∈ ((c.entries.filter
          (fun b => b.is_boot && strTruthy b.active)).map (fun b => b.ident)) :=
        ident_mem_actives_of_active c.entries i e hget hboot hA
      have hxI : e.ident ∉ c.mods.inactives := fun hx => hinact _ hx hxcur
      constructor
      · intro _
        exact (hclean' e.ident).mp
          (mem_setDiffL.mpr ⟨mem_setUnionL.mpr (Or.inl hxcur), hxI⟩)
      · intro _
        refine ⟨Or.inr (mem_setAdd.mpr (Or.inr rfl)), ?_⟩
        intro hx
        exact (mem_setDiscard.mp hx).2 rfl
    · have hAmem : y ∈ setAdd (setDiscard c.mods.actives e.ident) e.ident
          ↔ y ∈ c.mods.actives := by
        rw [mem_setAdd, mem_setDiscard]
        exact ⟨fun h => h.elim And.left (fun h => absurd h hyx),
          fun h => Or.inl ⟨h, hyx⟩⟩
      have hImem : y ∈ setDiscard (setAdd c.mods.inactives e.ident) e.ident
          ↔ y ∈ c.mods.inactives := by
        rw [mem_setDiscard, mem_setAdd]
        exact ⟨fun h => h.1.elim id (fun h' => absurd h' h.2),
          fun h => ⟨Or.inl h, hyx⟩⟩
      rw [hAmem, hImem]
      have hy := hclean' y
      simp only [simulated_actives, current_actives, original_actives,
        mem_setDiffL, mem_setUnionL] at hy
      exact hy
  · have hA' : strTruthy e.active = false := by
      revert hA; cases strTruthy e.active <;> simp
    rw [starOp_inactive c i e hget hboot hA'] at h1
    injection h1 with h1
    subst h1
    rw [starOp_active _ i { e with active := "*" }
        (get?_set_self c.entries i e _ hget) hboot rfl] at h2
    injection h2 with h2
    subst h2
    simp only [actives_changed]
    apply Bool.and_eq_false_iff.mpr
    right
    rw [Bool.not_eq_false']
    rw [setEqb_iff]
    intro y
    simp only [simulated_actives, current_actives, original_actives, List.set_set]
    have hp1 : (({ e with active := "" } : BootEntry).is_boot &&
        strTruthy ({ e with active := "" } : BootEntry).active) =
        (e.is_boot && strTruthy e.active) := by
      show (e.is_boot && strTruthy "") = _
      rw [hA', show strTruthy "" = false from rfl]
    rw [filter_map_set_congr (fun b => b.is_boot && strTruthy b.active)
      (fun b => b.ident) c.entries i e { e with active := "" } hget hp1
      (show ({ e with active := "" } : BootEntry).ident = e.ident from rfl)]
    simp only [mem_setDiffL, mem_setUnionL]
    by_cases hyx : y = e.ident
    · subst hyx
      have hxcur : e.ident ∉ ((c.entries.filter
          (fun b => b.is_boot && strTruthy b.active)).map (fun b => b.ident)) :=
        ident_not_mem_actives_of_inactive c.entries i e hget hboot hA' hnodup
      have hxA : e.ident ∉ c.mods.actives := fun hx => hxcur (hact _ hx)
      constructor
      · intro ⟨_, hr⟩
        exact absurd (mem_setAdd.mpr (Or.inr rfl)) hr
      · intro hy
        have hsim := (hclean' e.ident).mpr hy
        rcases mem_setDiffL.mp hsim with ⟨hl, _⟩
        rcases mem_setUnionL.mp hl with h | h
        · exact absurd h hxcur
        · exact absurd h hxA
    · have hAmem : y ∈ setDiscard (setAdd c.mods.actives e.ident) e.ident
          ↔ y ∈ c.mods.actives := by
        rw [mem_setDiscard, mem_setAdd]
        exact ⟨fun h => h.1.elim id (fun h' => absurd h' h.2),
          fun h => ⟨Or.inl h, hyx⟩⟩
      have hImem : y ∈ setAdd (setDiscard c.mods.inactives e.ident) e.ident
          ↔ y ∈ c.mods.inactives := by
        rw [mem_setAdd, mem_setDiscard]
        exact ⟨fun h => h.elim And.left (fun h => absurd h hyx),
          fun h => Or.inl ⟨h, hyx⟩⟩
      rw [hAmem, hImem]
      have hy := hclean' y
      simp only [simulated_actives, current_actives, original_actives,
        mem_setDiffL, mem_setUnionL] at hy
      exact hy

/-- Witness for C1 at a concrete session. -/
theorem C1_active_double_toggle_not_dirty_witness :
    actives_changed cfgW2 = false :=
  C1_active_double_toggle_not_dirty cfgW cfgW1 cfgW2 2
    { ident := "0001", is_boot := true, active := "*", label := "A" }
    rfl rfl (by decide)
    (by intro x hx; exact absurd hx (List.not_mem_nil x))
    (by intro x hx; exact absurd hx (List.not_mem_nil x))
    (by decide) rfl rfl

/-! ### Order-category machinery (claim C2) -/

theorem current_order_set_congr (l : List BootEntry) (i : Nat) (a b : BootEntry)
    (h : l.get? i = some a)
    (hp : (b.is_boot && !b.removed) = (a.is_boot && !a.removed))
    (hid : b.ident = a.ident) :
    ((l.set i b).filter (fun e => e.is_boot && !e.removed)).map (fun e => e.ident)
      = (l.filter (fun e => e.is_boot && !e.removed)).map (fun e => e.ident) :=
  filter_map_set_congr _ _ l i a b h hp hid

/-- Every mutation step either raises the `mods.order` flag or leaves both the
flag and the non-removed boot-identifier sequence unchanged; the snapshot is
never touched. -/
theorem stepOp_ordpres (c c1 : Config) (op : UserOp)
    (h : stepOp c op = some c1) :
    c1.orig = c.orig ∧
      (c1.mods.order = true ∨
        (c1.mods.order = c.mods.order ∧ current_order c1 = current_order c)) := by
  have triv : c1 = c → c1.orig = c.orig ∧
      (c1.mods.order = true ∨
        (c1.mods.order = c.mods.order ∧ current_order c1 = current_order c)) := by
    rintro rfl; exact ⟨rfl, Or.inr ⟨rfl, rfl⟩⟩
  cases op with
  | up i =>
    cases hg : c.entries.get? i with
    | none =>
      simp only [stepOp, upOp, hg] at h
      exact Option.noConfusion h
    | some e =>
      simp only [stepOp, upOp, hg] at h
      split at h
      · cases hg2 : c.entries.get? (i - 1) with
        | none =>
          simp only [hg2] at h
          exact triv (Option.some.inj h).symm
        | some p =>
          simp only [hg2] at h
          split at h
          · injection h with h; subst h; exact ⟨rfl, Or.inl rfl⟩
          · exact triv (Option.some.inj h).symm
      · exact triv (Option.some.inj h).symm
  | down i =>
    cases hg : c.entries.get? i with
    | none =>
      simp only [stepOp, downOp, hg] at h
      exact Option.noConfusion h
    | some e =>
      simp only [stepOp, downOp, hg] at h
      split at h
      · cases hg2 : c.entries.get? (i + 1) with
        | none =>
          simp only [hg2] at h
          exact triv (Option.some.inj h).symm
        | some p =>
          simp only [hg2] at h
          split at h
          · injection h with h; subst h; exact ⟨rfl, Or.inl rfl⟩
          · exact triv (Option.some.inj h).symm
      · exact triv (Option.some.inj h).symm
  | star i =>
    cases hg : c.entries.get? i with
    | none =>
      simp only [stepOp, starOp, hg] at h
      exact Option.noConfusion h
    | some e =>
      simp only [stepOp, starOp, hg] at h
      split at h
      · split at h
        · injection h with h; subst h
          refine ⟨rfl, Or.inr ⟨rfl, ?_⟩⟩
          simp only [current_order]
          exact current_order_set_congr c.entries i e { e with active := "" } hg rfl rfl
        · injection h with h; subst h
          refine ⟨rfl, Or.inr ⟨rfl, ?_⟩⟩
          simp only [current_order]
          exact current_order_set_congr c.entries i e { e with active := "*" } hg rfl rfl
      · exact triv (Option.some.inj h).symm
  | remove i =>
    cases hg : c.entries.get? i with
    | none =>
      simp only [stepOp, removeOp, hg] at h
      exact Option.noConfusion h
    | some e =>
      simp only [stepOp, removeOp, hg] at h
      split at h
      · split at h
        · injection h with h; subst h; exact ⟨rfl, Or.inl rfl⟩
        · injection h with h; subst h; exact ⟨rfl, Or.inl rfl⟩
      · exact triv (Option.some.inj h).symm
  | bootNext i =>
    cases hg : c.entries.get? i with
    | none =>
      simp only [stepOp, nextOp, hg] at h
      exact Option.noConfusion h
    | some e =>
      simp only [stepOp, nextOp, hg] at h
      split at h
      · cases hb : ((c.entries.filter (fun b => b.is_boot)).map (fun b => b.ident)) with
        | nil =>
          simp only [hb] at h
          exact triv (Option.some.inj h).symm
        | cons b0 bs =>
          simp only [hb] at h
          split at h
          · injection h with h; subst h
            refine ⟨rfl, Or.inr ⟨rfl, ?_⟩⟩
            simp only [current_order]
            exact current_order_set_congr c.entries i e _ hg rfl rfl
          · exact Option.noConfusion h
      · split at h
        · cases hent : c.entries with
          | nil =>
            simp only [hent] at h
            exact Option.noConfusion h
          | cons e0 rest =>
            simp only [hent] at h
            injection h with h; subst h
            refine ⟨rfl, Or.inr ⟨rfl, ?_⟩⟩
            simp only [current_order, hent]
            have hrw : ({ e0 with label := e.ident } : BootEntry) :: rest
                = (e0 :: rest).set 0 { e0 with label := e.ident } := rfl
            rw [hrw]
            exact current_order_set_congr (e0 :: rest) 0 e0 _ rfl rfl rfl
        · exact triv (Option.some.inj h).symm
  | tag i a =>
    cases hg : c.entries.get? i with
    | none =>
      simp only [stepOp, tagOp, hg] at h
      exact Option.noConfusion h
    | some e =>
      simp only [stepOp, tagOp, hg] at h
      split at h
      · split at h
        · exact triv (Option.some.inj h).symm
        · split at h
          · injection h with h; subst h
            refine ⟨rfl, Or.inr ⟨rfl, ?_⟩⟩
            simp only [current_order]
            exact current_order_set_congr c.entries i e _ hg rfl rfl
          · exact triv (Option.some.inj h).symm
      · exact triv (Option.some.inj h).symm
  | modTimeout i a =>
    cases hg : c.entries.get? i with
    | none =>
      simp only [stepOp, modTimeoutOp, hg] at h
      exact Option.noConfusion h
    | some e =>
      simp only [stepOp, modTimeoutOp, hg] at h
      split at h
      · cases hft : pyFirstToken e.label with
        | none =>
          simp only [hft] at h
          exact Option.noConfusion h
        | some tok =>
          simp only [hft] at h
          split at h
          · exact triv (Option.some.inj h).symm
          · split at h
            · injection h with h; subst h
              refine ⟨rfl, Or.inr ⟨rfl, ?_⟩⟩
              simp only [current_order]
              exact current_order_set_congr c.entries i e _ hg rfl rfl
            · exact triv (Option.some.inj h).symm
      · exact triv (Option.some.inj h).symm

/-- Along any run of mutation operations, a cleared `mods.order` flag implies
the non-removed boot-identifier sequence still matches the snapshot. -/
theorem runOps_order_inv (ops : List UserOp) (c c' : Config)
    (hrun : runOps c ops = some c')
    (hc : c.mods.order = false → current_order c = original_order c) :
    c'.mods.order = false → current_order c' = original_order c' := by
  induction ops generalizing c with
  | nil =>
    injection hrun with h
    subst h
    exact hc
  | cons op rest ih =>
    rcases Option.bind_eq_some.mp hrun with ⟨c1, h1, h2⟩
    refine ih c1 h2 ?_
    intro hord
    rcases stepOp_ordpres c c1 op h1 with ⟨horig, hcase⟩
    rcases hcase with hT | ⟨heq, hcur⟩
    · rw [hT] at hord; exact absurd hord (by simp)
    · have horde : original_order c1 = original_order c := by
        simp only [original_order, horig]
      rw [hcur, horde]
      exact hc (heq ▸ hord)

theorem set_get_self {α : Type} (l : List α) (i : Nat) (a : α)
    (h : l.get? i = some a) : l.set i a = l := by
  induction l generalizing i with
  | nil => rfl
  | cons hd tl ih =>
    cases i with
    | zero =>
      injection h with h
      subst h
      rfl
    | succ j =>
      simp only [List.set]
      rw [ih j h]

/-- Reduction of `upOp` when the move actually happens. -/
theorem upOp_moves (c : Config) (i : Nat) (e p : BootEntry)
    (hget : c.entries.get? i = some e) (hboot : e.is_boot = true)
    (hrm : e.removed = false) (hgt : c.boot_idx < i)
    (hgetp : c.entries.get? (i - 1) = some p) (hprm : p.removed = false) :
    upOp c i = some { c with
      entries := (c.entries.set (i - 1) e).set i p,
      mods := { c.mods with order := true } } := by
  have hget' : c.entries[i]? = some e := by simpa using hget
  have hgetp' : c.entries[i - 1]? = some p := by simpa using hgetp
  simp [upOp, hget', hgetp', hboot, hrm, hprm, hgt]

/-- Reduction of `downOp` when the move actually happens. -/
theorem downOp_moves (c : Config) (i : Nat) (e nxt : BootEntry)
    (hget : c.entries.get? i = some e) (hboot : e.is_boot = true)
    (hrm : e.removed = false)
    (hgetn : c.entries.get? (i + 1) = some nxt) (hnrm : nxt.removed = false) :
    downOp c i = some { c with
      entries := (c.entries.set (i + 1) e).set i nxt,
      mods := { c.mods with order := true } } := by
  have hget' : c.entries[i]? = some e := by simpa using hget
  have hgetn' : c.entries[i + 1]? = some nxt := by simpa using hgetn
  simp [downOp, hget', hgetn', hboot, hrm, hnrm]

/-- **C2.**  First conjunct: in every session state reachable from a loaded
table by mutation operations, the order dirty category
(`order_changed`, source line 295) is true exactly when the sequence of
non-removed boot-option identifiers differs from that sequence in the
snapshot.  Second conjunct: moving a movable entry up and then down restores
the entry sequence exactly, and when the order matched the snapshot
beforehand the order category reports not-dirty afterwards. -/
theorem C2_order_dirty_iff_and_up_down_roundtrip :
    (∀ (tbl : List BootEntry) (idx : Nat) (ops : List UserOp) (c : Config),
      tbl.all (fun e => !e.removed) = true →
      runOps (initConfig tbl idx) ops = some c →
      (order_changed c = true ↔ current_order c ≠ original_order c))
    ∧
    (∀ (c c1 c2 : Config) (i : Nat) (e p : BootEntry),
      c.entries.get? i = some e → e.is_boot = true → e.removed = false →
      c.boot_idx < i →
      c.entries.get? (i - 1) = some p → p.removed = false →
      current_order c = original_order c →
      upOp c i = some c1 → downOp c1 (i - 1) = some c2 →
      c2.entries = c.entries ∧ order_changed c2 = false) := by
  constructor
  · intro tbl idx ops c hall hrun
    have hinit : (initConfig tbl idx).mods.order = false →
        current_order (initConfig tbl idx) = original_order (initConfig tbl idx) := by
      intro _
      simp only [current_order, original_order, initConfig]
      have : List.filter (fun e => e.is_boot && !e.removed) tbl
          = List.filter (fun e => e.is_boot) tbl := by
        apply List.filter_congr
        intro x hx
        have : (!x.removed) = true := List.all_eq_true.mp hall x hx
        rw [this, Bool.and_true]
      rw [this]
    have hinv := runOps_order_inv ops (initConfig tbl idx) c hrun hinit
    cases hord : c.mods.order with
    | false =>
      have hcur := hinv hord
      simp only [order_changed, hord, Bool.false_and, Bool.false_eq_true, false_iff]
      intro hne
      exact hne hcur
    | true =>
      simp only [order_changed, hord, Bool.true_and]
      exact ⟨fun h => of_decide_eq_true h, fun h => decide_eq_true h⟩
  · intro c c1 c2 i e p hget hboot hrm hgt hgetp hprm hOrd h1 h2
    have hpos : 0 < i := Nat.lt_of_le_of_lt (Nat.zero_le _) hgt
    have hne : i - 1 ≠ i := Nat.ne_of_lt (Nat.pred_lt (Nat.pos_iff_ne_zero.mp hpos))
    rw [upOp_moves c i e p hget hboot hrm hgt hgetp hprm] at h1
    injection h1 with h1
    subst h1
    have hsucc : i - 1 + 1 = i := Nat.succ_pred_eq_of_pos hpos
    have hg1 : ((c.entries.set (i - 1) e).set i p).get? (i - 1) = some e := by
      rw [List.get?_set_ne p (c.entries.set (i - 1) e) hne.symm,
        List.get?_set_eq, hgetp]
      rfl
    have hg2 : ((c.entries.set (i - 1) e).set i p).get? (i - 1 + 1) = some p := by
      rw [hsucc]
      exact get?_set_self _ i _ p (by rw [List.get?_set_ne e c.entries hne, hget])
    rw [downOp_moves _ (i - 1) e p hg1 hboot hrm hg2 hprm] at h2
    injection h2 with h2
    subst h2
    have hE : ((((c.entries.set (i - 1) e).set i p).set (i - 1 + 1) e).set (i - 1) p)
        = c.entries := by
      rw [hsucc, List.set_set, List.set_comm e p (c.entries.set (i - 1) e) hne.symm,
        List.set_set, set_get_self c.entries (i - 1) p hgetp,
        set_get_self c.entries i e hget]
    constructor
    · exact hE
    · have hxy := hOrd
      simp only [current_order, original_order] at hxy
      simp only [order_changed, current_order, original_order]
      rw [hE, Bool.true_and]
      exact decide_eq_false (fun hcon => hcon hxy)

/-- Witness for C2 at a concrete session: one up-move, then the up/down
round trip. -/
theorem C2_order_dirty_iff_and_up_down_roundtrip_witness :
    ((order_changed cfgW3 = true ↔ current_order cfgW3 ≠ original_order cfgW3) ∧
      (cfgW4.entries = cfgW.entries ∧ order_changed cfgW4 = false)) :=
  ⟨C2_order_dirty_iff_and_up_down_roundtrip.1 tblW 2 [UserOp.up 3] cfgW3
      (by decide) rfl,
    C2_order_dirty_iff_and_up_down_roundtrip.2 cfgW cfgW3 cfgW4 3
      { ident := "0002", is_boot := true, label := "B" }
      { ident := "0001", is_boot := true, active := "*", label := "A" }
      rfl rfl rfl (by decide) rfl rfl rfl rfl rfl⟩

theorem digestLine_boot_order_none (sysUuids : List (String × String))
    (st : DigState) (line : String)
    (h : isBootOrderLine line = false) (hb : st.boot_order = none) :
    (digestLine sysUuids st line).boot_order = none := by
  cases hps : pySplitMax1 line with
  | nil => simp only [digestLine, hps]; exact hb
  | cons a rest =>
    cases rest with
    | nil => simp only [digestLine, hps]; exact hb
    | cons b rest2 =>
      cases rest2 with
      | cons x xs => simp only [digestLine, hps]; exact hb
      | nil =>
        have hk : ¬(a = "BootOrder:") := by
          simp only [isBootOrderLine, hps, decide_eq_false_iff_not] at h
          exact h
        simp only [digestLine, hps, if_neg hk]
        cases hm : matchBoot line with
        | none =>
          simp only [hm]
          split
          · exact hb
          · exact hb
        | some m => simp only [hm]; exact hb

theorem foldl_boot_order_none (sysUuids : List (String × String))
    (ls : List String) (st : DigState)
    (hb : st.boot_order = none)
    (h : ls.all (fun l => !isBootOrderLine l) = true) :
    (ls.foldl (digestLine sysUuids) st).boot_order = none := by
  induction ls generalizing st with
  | nil => exact hb
  | cons l rest ih =>
    simp only [List.all_cons, Bool.and_eq_true, Bool.not_eq_true'] at h
    refine ih (digestLine sysUuids st l) ?_ ?_
    · exact digestLine_boot_order_none sysUuids st l h.1 hb
    · simp only [List.all_eq_true]
      intro x hx
      have := List.all_eq_true.mp h.2 x hx
      exact this

/-- **C3.**  The claim says a missing `BootOrder:` declaration is treated as
an empty order and parsing never fails.  The code disagrees: `boot_order` is
assigned only inside the `BootOrder:` branch, so when no input line carries
that key, line 277 (`boot_order.split(',')`) reads an unbound local and the
parse raises `UnboundLocalError` — modelled as a `none` result — instead of
producing a table. -/
theorem C3_missing_bootorder_crashes_parse
    (sysUuids : List (String × String)) (lines : List String)
    (h : lines.all (fun l => !isBootOrderLine l) = true) :
    digest_boots sysUuids lines = none := by
  have hseed : isBootOrderLine "BootNext: ---" = false := by decide
  have hfold := foldl_boot_order_none sysUuids ("BootNext: ---" :: lines)
    ⟨[], none, []⟩ rfl (by simp only [List.all_cons, hseed, h]; rfl)
  simp only [digest_boots, hfold]

/-- Witness for C3: a well-formed boot-entry line without any `BootOrder:`
line makes the whole parse fail. -/
theorem C3_missing_bootorder_crashes_parse_witness :
    digest_boots [] ["Boot0001* Ubuntu\tHD(1)"] = none :=
  C3_missing_bootorder_crashes_parse [] ["Boot0001* Ubuntu\tHD(1)"] (by decide)

/-! ### Digest-fold invariants (claims C4, C5, C10) -/

theorem all_takeWhile {α : Type} (p : α → Bool) (l : List α) :
    (l.takeWhile p).all p = true := by
  induction l with
  | nil => rfl
  | cons a t ih =>
    simp only [List.takeWhile]
    cases hp : p a with
    | false => rfl
    | true => simp only [List.all_cons, hp, Bool.true_and]; exact ih

/-- A successful boot-option match yields an identifier made of hex digits
(regex group 1 is `[0-9a-f]+` under `IGNORECASE`). -/
theorem matchBoot_ident_all_hex (line : String) (m : BootMatch)
    (h : matchBoot line = some m) :
    m.ident.toList.all isHexDigitChar = true := by
  simp only [matchBoot] at h
  split at h
  · split at h
    · split at h
      · exact Option.noConfusion h
      · split at h
        · exact Option.noConfusion h
        · split at h
          · exact Option.noConfusion h
          · split at h
            · split at h
              · exact Option.noConfusion h
              · injection h with h
                subst h
                exact all_takeWhile isHexDigitChar _
            · exact Option.noConfusion h
    · exact Option.noConfusion h
  · exact Option.noConfusion h

/-- An all-hex identifier is never one of the system-field keys. -/
theorem all_hex_ne_sysfield (s : String)
    (h : s.toList.all isHexDigitChar = true) :
    s ≠ "BootNext:" ∧ s ≠ "Timeout:" := by
  constructor
  · rintro rfl
    exact absurd h (by decide)
  · rintro rfl
    exact absurd h (by decide)

theorem countIdent_append (a b : List BootEntry) (k : String) :
    countIdent (a ++ b) k = countIdent a k + countIdent b k := by
  simp [countIdent, List.filter_append]

theorem countIdent_cons (x : BootEntry) (t : List BootEntry) (k : String) :
    countIdent (x :: t) k = (if x.ident = k then 1 else 0) + countIdent t k := by
  by_cases hx : x.ident = k <;>
    simp [countIdent, List.filter_cons, hx, Nat.add_comm]

theorem head?_append_left {α : Type} (l l' : List α) (h : l ≠ []) :
    (l ++ l').head? = l.head? := by
  cases l with
  | nil => exact absurd rfl h
  | cons a t => rfl

theorem mem_updateBoots (l : List (String × BootEntry)) (k : String)
    (v : BootEntry) (q : String × BootEntry) (h : q ∈ updateBoots l k v) :
    q ∈ l ∨ q = (k, v) := by
  unfold updateBoots at h
  split at h
  · rcases List.mem_map.mp h with ⟨p, hp, heq⟩
    by_cases hpk : p.1 = k
    · right
      rw [← heq, if_pos hpk]
    · left
      rw [← heq, if_neg hpk]
      exact hp
  · rcases List.mem_append.mp h with h | h
    · exact Or.inl h
    · right
      simpa using h

theorem updateBoots_keys (l : List (String × BootEntry)) (k : String) (v : BootEntry) :
    (updateBoots l k v).map Prod.fst =
      if l.any (fun p => p.1 = k) then l.map Prod.fst
      else l.map Prod.fst ++ [k] := by
  unfold updateBoots
  split
  · rw [List.map_map]
    apply List.map_congr_left
    intro p _
    by_cases hpk : p.1 = k
    · simp [hpk]
    · simp [hpk]
  · simp

theorem updateBoots_nodup (l : List (String × BootEntry)) (k : String)
    (v : BootEntry) (h : (l.map Prod.fst).Nodup) :
    ((updateBoots l k v).map Prod.fst).Nodup := by
  rw [updateBoots_keys]
  split
  · exact h
  · rename_i hany
    have hk : k ∉ l.map Prod.fst := by
      intro hkmem
      rcases List.mem_map.mp hkmem with ⟨p, hp, hpe⟩
      exact hany (List.any_eq_true.mpr ⟨p, hp, by simp [hpe]⟩)
    simp [List.nodup_append, h, hk]

/-- `digestLine` preserves the loop invariant, whatever the input line. -/
theorem digestLine_inv (sysUuids : List (String × String)) (st : DigState)
    (line : String) (hI : DigInv st) :
    DigInv (digestLine sysUuids st line) := by
  cases hps : pySplitMax1 line with
  | nil =>
    simp only [digestLine, hps]
    exact hI
  | cons a rest =>
    cases rest with
    | nil =>
      simp only [digestLine, hps]
      exact hI
    | cons b rest2 =>
      cases rest2 with
      | cons x xs =>
        simp only [digestLine, hps]
        exact hI
      | nil =>
        simp only [digestLine, hps]
        by_cases hk : a = "BootOrder:"
        · rw [if_pos hk]
          exact ⟨hI.rv_ne, hI.head_bn, hI.bn_count, hI.rv_flags, hI.boots_wf,
            hI.boots_nodup⟩
        · rw [if_neg hk]
          cases hm : matchBoot line with
          | none =>
            simp only []
            by_cases hbn : (a = "BootNext:" && !st.rv.isEmpty) = true
            · rw [if_pos hbn]
              have ha : a = "BootNext:" := by
                rcases Bool.and_eq_true .. |>.mp hbn with ⟨h1, _⟩
                exact of_decide_eq_true h1
              obtain ⟨lbl, hhead⟩ := hI.head_bn
              obtain ⟨h0, t, hrv⟩ : ∃ h0 t, st.rv = h0 :: t := by
                cases hcase : st.rv with
                | nil => exact absurd hcase hI.rv_ne
                | cons h0 t => exact ⟨h0, t, rfl⟩
              have hh0 : h0 = { ident := "BootNext:", label := lbl } := by
                rw [hrv] at hhead
                exact Option.some.inj hhead
              have hset : st.rv.set 0 { ident := a, label := b } =
                  ({ ident := a, label := b } : BootEntry) :: t := by
                rw [hrv]; rfl
              have hct : countIdent t "BootNext:" = 0 := by
                have hcnt := hI.bn_count
                rw [hrv, countIdent_cons, hh0] at hcnt
                simpa using hcnt
              refine ⟨?_, ?_, ?_, ?_, hI.boots_wf, hI.boots_nodup⟩
              · rw [hset]; simp
              · refine ⟨b, ?_⟩
                rw [hset, ha]
                rfl
              · rw [hset, countIdent_cons]
                simp [ha, hct]
              · intro e he
                rw [hset] at he
                rcases List.mem_cons.mp he with rfl | he
                · exact ⟨rfl, rfl⟩
                · exact hI.rv_flags e (by rw [hrv]; exact List.mem_cons_of_mem _ he)
            · rw [if_neg hbn]
              have hane : a ≠ "BootNext:" := by
                intro haeq
                apply hbn
                rw [haeq]
                simp only [decide_True, Bool.true_and, Bool.not_eq_true']
                cases hcase : st.rv with
                | nil => exact absurd hcase hI.rv_ne
                | cons h0 t => rfl
              refine ⟨?_, ?_, ?_, ?_, hI.boots_wf, hI.boots_nodup⟩
              · simp [hI.rv_ne]
              · obtain ⟨lbl, hhead⟩ := hI.head_bn
                exact ⟨lbl, by rw [head?_append_left _ _ hI.rv_ne]; exact hhead⟩
              · rw [countIdent_append, hI.bn_count, countIdent_cons]
                simp [hane, countIdent]
              · intro e he
                rcases List.mem_append.mp he with he | he
                · exact hI.rv_flags e he
                · rcases List.mem_singleton.mp he with rfl
                  exact ⟨rfl, rfl⟩
          | some m =>
            simp only []
            have hhex := matchBoot_ident_all_hex line m hm
            refine ⟨hI.rv_ne, hI.head_bn, hI.bn_count, hI.rv_flags, ?_, ?_⟩
            · intro p hp
              rcases mem_updateBoots _ _ _ p hp with hp | rfl
              · exact hI.boots_wf p hp
              · exact ⟨rfl, hhex, rfl, rfl⟩
            · exact updateBoots_nodup _ _ _ hI.boots_nodup

/-- The invariant holds along the whole line loop. -/
theorem foldl_digestLine_inv (sysUuids : List (String × String))
    (ls : List String) (st : DigState) (hI : DigInv st) :
    DigInv (ls.foldl (digestLine sysUuids) st) := by
  induction ls generalizing st with
  | nil => exact hI
  | cons l rest ih => exact ih _ (digestLine_inv sysUuids st l hI)

/-- The state after processing the synthetic seed line. -/
theorem seed_state (sysUuids : List (String × String)) :
    digestLine sysUuids ⟨[], none, []⟩ "BootNext: ---"
      = ⟨[{ ident := "BootNext:", label := "---" }], none, []⟩ := rfl

theorem seed_inv (sysUuids : List (String × String)) :
    DigInv (digestLine sysUuids ⟨[], none, []⟩ "BootNext: ---") := by
  rw [seed_state]
  refine ⟨by simp, ⟨"---", rfl⟩, by simp [countIdent], ?_, ?_, by simp⟩
  · intro e he
    rcases List.mem_singleton.mp he with rfl
    exact ⟨rfl, rfl⟩
  · intro p hp
    exact absurd hp (List.not_mem_nil p)

/-- Decomposition of a successful `digest_boots` run: the final table is the
system prefix `rv` followed by the ordered and leftover boot options, the
boundary index is `rv.length`, and the loop invariant holds. -/
theorem digest_boots_eq (sysUuids : List (String × String)) (lines : List String)
    (tbl : List BootEntry) (idx : Nat)
    (h : digest_boots sysUuids lines = some (tbl, idx)) :
    ∃ bo,
      (("BootNext: ---" :: lines).foldl (digestLine sysUuids)
        ⟨[], none, []⟩).boot_order = some bo ∧
      DigInv (("BootNext: ---" :: lines).foldl (digestLine sysUuids)
        ⟨[], none, []⟩) ∧
      tbl = (("BootNext: ---" :: lines).foldl (digestLine sysUuids)
          ⟨[], none, []⟩).rv
        ++ (applyBootOrder (splitComma bo)
            (("BootNext: ---" :: lines).foldl (digestLine sysUuids)
              ⟨[], none, []⟩).boots).1
        ++ (applyBootOrder (splitComma bo)
            (("BootNext: ---" :: lines).foldl (digestLine sysUuids)
              ⟨[], none, []⟩).boots).2.map Prod.snd ∧
      idx = (("BootNext: ---" :: lines).foldl (digestLine sysUuids)
        ⟨[], none, []⟩).rv.length := by
  have hInv : DigInv (("BootNext: ---" :: lines).foldl (digestLine sysUuids)
      ⟨[], none, []⟩) := by
    rw [List.foldl_cons]
    exact foldl_digestLine_inv sysUuids lines _ (seed_inv sysUuids)
  unfold digest_boots at h
  revert h
  cases hbo : (("BootNext: ---" :: lines).foldl (digestLine sysUuids)
      ⟨[], none, []⟩).boot_order with
  | none =>
    intro h
    simp only [hbo] at h
    exact Option.noConfusion h
  | some bo =>
    intro h
    simp only [hbo] at h
    injection h with h
    have h1 := congrArg Prod.fst h
    have h2 := congrArg Prod.snd h
    exact ⟨bo, rfl, hInv, h1.symm, h2.symm⟩

/-- Both components of `applyBootOrder` draw from the input dict. -/
theorem applyBootOrder_sub (order : List String)
    (boots : List (String × BootEntry)) :
    (∀ e ∈ (applyBootOrder order boots).1, ∃ p ∈ boots, p.2 = e) ∧
    (∀ p ∈ (applyBootOrder order boots).2, p ∈ boots) := by
  induction order generalizing boots with
  | nil =>
    refine ⟨?_, ?_⟩
    · intro e he
      exact absurd he (List.not_mem_nil e)
    · intro p hp
      exact hp
  | cons id rest ih =>
    simp only [applyBootOrder]
    cases hf : boots.find? (fun p => p.1 = id) with
    | none => exact ih boots
    | some p =>
      have hpmem : p ∈ boots := List.mem_of_find?_eq_some hf
      have hsub := ih (boots.filter (fun q => decide (q.1 ≠ id)))
      refine ⟨?_, ?_⟩
      · intro e he
        rcases List.mem_cons.mp he with rfl | he
        · exact ⟨p, hpmem, rfl⟩
        · rcases hsub.1 e he with ⟨q, hq, rfl⟩
          exact ⟨q, List.mem_of_mem_filter hq, rfl⟩
      · intro q hq
        exact List.mem_of_mem_filter (hsub.2 q hq)

theorem countIdent_eq_zero (l : List BootEntry) (k : String)
    (h : ∀ e ∈ l, e.ident ≠ k) : countIdent l k = 0 := by
  induction l with
  | nil => rfl
  | cons x t ih =>
    rw [countIdent_cons, if_neg (h x (List.mem_cons_self x t)),
      ih (fun e he => h e (List.mem_cons_of_mem x he))]

/-- With no `Timeout:` key among the lines, the system prefix never acquires
a `Timeout:` entry. -/
theorem digestLine_rv_no_timeout (sysUuids : List (String × String))
    (st : DigState) (line : String)
    (hline : isTimeoutLine line = false)
    (hst : ∀ e ∈ st.rv, e.ident ≠ "Timeout:") :
    ∀ e ∈ (digestLine sysUuids st line).rv, e.ident ≠ "Timeout:" := by
  cases hps : pySplitMax1 line with
  | nil => simp only [digestLine, hps]; exact hst
  | cons a rest =>
    cases rest with
    | nil => simp only [digestLine, hps]; exact hst
    | cons b rest2 =>
      cases rest2 with
      | cons x xs => simp only [digestLine, hps]; exact hst
      | nil =>
        have ha : a ≠ "Timeout:" := by
          simp only [isTimeoutLine, hps, decide_eq_false_iff_not] at hline
          exact hline
        simp only [digestLine, hps]
        by_cases hk : a = "BootOrder:"
        · rw [if_pos hk]; exact hst
        · rw [if_neg hk]
          cases hm : matchBoot line with
          | none =>
            simp only []
            split
            · intro e he
              rcases List.mem_or_eq_of_mem_set he with he | rfl
              · exact hst e he
              · exact ha
            · intro e he
              rcases List.mem_append.mp he with he | he
              · exact hst e he
              · rcases List.mem_singleton.mp he with rfl
                exact ha
          | some m => simp only []; exact hst

theorem foldl_rv_no_timeout (sysUuids : List (String × String))
    (ls : List String) (st : DigState)
    (hst : ∀ e ∈ st.rv, e.ident ≠ "Timeout:")
    (hls : ls.all (fun l => !isTimeoutLine l) = true) :
    ∀ e ∈ (ls.foldl (digestLine sysUuids) st).rv, e.ident ≠ "Timeout:" := by
  induction ls generalizing st with
  | nil => exact hst
  | cons l rest ih =>
    simp only [List.all_cons, Bool.and_eq_true, Bool.not_eq_true'] at hls
    exact ih _ (digestLine_rv_no_timeout sysUuids st l hls.1 hst)
      (List.all_eq_true.mpr (fun x hx => List.all_eq_true.mp hls.2 x hx))

/-- **C4, counterexample.**  The claim says every load synthesizes exactly one
timeout entry even when absent from the input.  Loading an input without any
`Timeout:` line succeeds and produces a table with zero timeout entries (only
the `BootNext:` placeholder is seeded, source line 216). -/
theorem C4_no_timeout_synthesized_counterexample :
    digest_boots [] ["BootOrder: 0001"]
      = some ([{ ident := "BootNext:", label := "---" }], 1)
    ∧ countIdent [{ ident := "BootNext:", label := "---" }] "Timeout:" = 0 :=
  ⟨rfl, rfl⟩

/-- **C4** (amended).  Every successful load produces exactly one next-boot
entry: the synthetic `BootNext: ---` seed is always placed first and an input
`BootNext:` line overwrites it in place rather than being appended.  The
timeout entry, however, is NOT synthesized: a load whose input has no
`Timeout:` line yields a table with no timeout entry at all. -/
theorem C4_bootnext_unique_timeout_not_synthesized :
    (∀ (sysUuids : List (String × String)) (lines : List String)
        (tbl : List BootEntry) (idx : Nat),
      digest_boots sysUuids lines = some (tbl, idx) →
      countIdent tbl "BootNext:" = 1)
    ∧
    (∀ (sysUuids : List (String × String)) (lines : List String)
        (tbl : List BootEntry) (idx : Nat),
      digest_boots sysUuids lines = some (tbl, idx) →
      lines.all (fun l => !isTimeoutLine l) = true →
      countIdent tbl "Timeout:" = 0) := by
  constructor
  · intro sysUuids lines tbl idx h
    rcases digest_boots_eq sysUuids lines tbl idx h with ⟨bo, _, hInv, htbl, _⟩
    subst htbl
    rw [countIdent_append, countIdent_append, hInv.bn_count]
    have hsub := applyBootOrder_sub (splitComma bo)
      (("BootNext: ---" :: lines).foldl (digestLine sysUuids) ⟨[], none, []⟩).boots
    have hz1 : countIdent (applyBootOrder (splitComma bo)
        (("BootNext: ---" :: lines).foldl (digestLine sysUuids)
          ⟨[], none, []⟩).boots).1 "BootNext:" = 0 := by
      apply countIdent_eq_zero
      intro e he
      rcases hsub.1 e he with ⟨p, hp, rfl⟩
      rcases hInv.boots_wf p hp with ⟨hid, hhex, _, _⟩
      rw [hid]
      exact (all_hex_ne_sysfield p.1 hhex).1
    have hz2 : countIdent ((applyBootOrder (splitComma bo)
        (("BootNext: ---" :: lines).foldl (digestLine sysUuids)
          ⟨[], none, []⟩).boots).2.map Prod.snd) "BootNext:" = 0 := by
      apply countIdent_eq_zero
      intro e he
      rcases List.mem_map.mp he with ⟨p, hp, rfl⟩
      rcases hInv.boots_wf p (hsub.2 p hp) with ⟨hid, hhex, _, _⟩
      rw [hid]
      exact (all_hex_ne_sysfield p.1 hhex).1
    rw [hz1, hz2]
  · intro sysUuids lines tbl idx h hnt
    rcases digest_boots_eq sysUuids lines tbl idx h with ⟨bo, _, hInv, htbl, _⟩
    subst htbl
    rw [countIdent_append, countIdent_append]
    have hseedrv : ∀ e ∈ (digestLine sysUuids ⟨[], none, []⟩ "BootNext: ---").rv,
        e.ident ≠ "Timeout:" := by
      rw [seed_state]
      intro e he
      rcases List.mem_singleton.mp he with rfl
      intro hcon
      exact absurd hcon (by decide)
    have hrv0 : ∀ e ∈ (("BootNext: ---" :: lines).foldl (digestLine sysUuids)
        ⟨[], none, []⟩).rv, e.ident ≠ "Timeout:" := by
      rw [List.foldl_cons]
      exact foldl_rv_no_timeout sysUuids lines _ hseedrv hnt
    have hsub := applyBootOrder_sub (splitComma bo)
      (("BootNext: ---" :: lines).foldl (digestLine sysUuids) ⟨[], none, []⟩).boots
    rw [countIdent_eq_zero _ _ hrv0]
    have hz1 : countIdent (applyBootOrder (splitComma bo)
        (("BootNext: ---" :: lines).foldl (digestLine sysUuids)
          ⟨[], none, []⟩).boots).1 "Timeout:" = 0 := by
      apply countIdent_eq_zero
      intro e he
      rcases hsub.1 e he with ⟨p, hp, rfl⟩
      rcases hInv.boots_wf p hp with ⟨hid, hhex, _, _⟩
      rw [hid]
      exact (all_hex_ne_sysfield p.1 hhex).2
    have hz2 : countIdent ((applyBootOrder (splitComma bo)
        (("BootNext: ---" :: lines).foldl (digestLine sysUuids)
          ⟨[], none, []⟩).boots).2.map Prod.snd) "Timeout:" = 0 := by
      apply countIdent_eq_zero
      intro e he
      rcases List.mem_map.mp he with ⟨p, hp, rfl⟩
      rcases hInv.boots_wf p (hsub.2 p hp) with ⟨hid, hhex, _, _⟩
      rw [hid]
      exact (all_hex_ne_sysfield p.1 hhex).2
    rw [hz1, hz2]

/-- Witness for C4 (amended) on concrete inputs: a full input (with a
`BootNext:` override line) keeps a single next-boot entry, and an input
without `Timeout:` lines has none. -/
theorem C4_bootnext_unique_timeout_not_synthesized_witness :
    countIdent tblW1 "BootNext:" = 1 ∧ countIdent tblW2 "Timeout:" = 0 :=
  ⟨C4_bootnext_unique_timeout_not_synthesized.1 [] linesW1 tblW1 idxW1 rfl,
    C4_bootnext_unique_timeout_not_synthesized.2 [] linesW2 tblW2 idxW2 rfl
      (by decide)⟩

/-! ### Claim C10: the next-boot field stays at index 0 -/

theorem head?_set_succ {α : Type} (l : List α) (j : Nat) (a : α) :
    (l.set (j + 1) a).head? = l.head? := by
  cases l <;> rfl

theorem head?_eraseIdx_succ {α : Type} (l : List α) (j : Nat) :
    (l.eraseIdx (j + 1)).head? = l.head? := by
  cases l <;> rfl

theorem head?_insertIdx_succ {α : Type} (l : List α) (q : Nat) (a : α)
    (h : l ≠ []) : (l.insertIdx (q + 1) a).head? = l.head? := by
  cases l with
  | nil => exact absurd rfl h
  | cons x t => rfl

theorem get?_zero_head? {α : Type} (l : List α) : l.get? 0 = l.head? := by
  cases l <;> rfl

theorem head?_insertIdx_pos {α : Type} (l : List α) (p : Nat) (a : α)
    (hp : 1 ≤ p) (hl : l ≠ []) : (l.insertIdx p a).head? = l.head? := by
  obtain ⟨q, rfl⟩ : ∃ q, p = q + 1 := ⟨p - 1, by omega⟩
  exact head?_insertIdx_succ l q a hl

/-- The restore insertion point lies beyond the system prefix. -/
theorem mem_of_head?_eq_some {α : Type} {l : List α} {a : α}
    (h : l.head? = some a) : a ∈ l := by
  cases l with
  | nil => exact Option.noConfusion h
  | cons x t =>
    injection h with h
    rw [← h]
    exact List.mem_cons_self x t

theorem restoreInsertPos_ge (entries0 : List BootEntry) (bootIdx i : Nat)
    (h1 : 1 ≤ bootIdx) (hlen : 1 ≤ entries0.length) :
    1 ≤ restoreInsertPos entries0 bootIdx i := by
  unfold restoreInsertPos
  cases hch : ((List.range entries0.length).filter
      (restoreCand entries0 bootIdx i)).head? with
  | none => exact hlen
  | some q =>
    have hqmem := mem_of_head?_eq_some hch
    rcases List.mem_filter.mp hqmem with ⟨_, hcond⟩
    unfold restoreCand at hcond
    rcases Bool.and_eq_true .. |>.mp hcond with ⟨hq1, _⟩
    have := of_decide_eq_true hq1
    show 1 ≤ q
    omega

theorem head_preserved_set (l : List BootEntry) (i : Nat) (e b : BootEntry)
    (hg : l.get? i = some e) (hid : b.ident = e.ident) (hib : b.is_boot = e.is_boot)
    (hh : ∃ e0, l.head? = some e0 ∧ e0.ident = "BootNext:" ∧ e0.is_boot = false) :
    ∃ e0, (l.set i b).head? = some e0 ∧ e0.ident = "BootNext:" ∧
      e0.is_boot = false := by
  cases i with
  | zero =>
    rcases hh with ⟨e0, h0, hbn, hib0⟩
    rw [get?_zero_head?, h0] at hg
    injection hg with hg
    refine ⟨b, ?_, ?_, ?_⟩
    · cases l with
      | nil => exact absurd h0 (by simp)
      | cons x t => rfl
    · rw [hid, ← hg]
      exact hbn
    · rw [hib, ← hg]
      exact hib0
  | succ j =>
    rw [head?_set_succ]
    exact hh

/-- Every mutation step keeps the `BootNext:` system entry at index 0. -/
theorem stepOp_headBootNext (c c1 : Config) (op : UserOp)
    (h : stepOp c op = some c1) (hI : headBootNext c) :
    headBootNext c1 := by
  obtain ⟨hh, hbidx⟩ := hI
  have hne0boot : ∀ (e : BootEntry) (i : Nat), c.entries.get? i = some e →
      e.is_boot = true → i ≠ 0 := by
    intro e i hg hb hi
    subst hi
    rcases hh with ⟨e0, h0, _, hib0⟩
    rw [get?_zero_head?, h0] at hg
    injection hg with hg
    rw [hg] at hib0
    rw [hb] at hib0
    exact Bool.noConfusion hib0
  have triv : c1 = c → headBootNext c1 := by rintro rfl; exact ⟨hh, hbidx⟩
  cases op with
  | up i =>
    cases hg : c.entries.get? i with
    | none =>
      simp only [stepOp, upOp, hg] at h
      exact Option.noConfusion h
    | some e =>
      simp only [stepOp, upOp, hg] at h
      split at h
      · cases hg2 : c.entries.get? (i - 1) with
        | none =>
          simp only [hg2] at h
          exact triv (Option.some.inj h).symm
        | some p =>
          simp only [hg2] at h
          split at h
          · injection h with h
            subst h
            rename_i hcond
            have hgt : c.boot_idx < i := by
              rcases Bool.and_eq_true .. |>.mp hcond with ⟨h1, _⟩
              exact of_decide_eq_true h1
            have h2i : 2 ≤ i := by omega
            refine ⟨?_, hbidx⟩
            obtain ⟨j1, hj1⟩ : ∃ j1, i - 1 = j1 + 1 := ⟨i - 2, by omega⟩
            obtain ⟨j2, hj2⟩ : ∃ j2, i = j2 + 1 := ⟨i - 1, by omega⟩
            rw [hj1, hj2, head?_set_succ, head?_set_succ]
            exact hh
          · exact triv (Option.some.inj h).symm
      · exact triv (Option.some.inj h).symm
  | down i =>
    cases hg : c.entries.get? i with
    | none =>
      simp only [stepOp, downOp, hg] at h
      exact Option.noConfusion h
    | some e =>
      simp only [stepOp, downOp, hg] at h
      split at h
      · rename_i hcond
        have hboot : e.is_boot = true := ((Bool.and_eq_true ..).mp hcond).1
        obtain ⟨j, hj⟩ : ∃ j, i = j + 1 :=
          ⟨i - 1, by have := hne0boot e i hg hboot; omega⟩
        cases hg2 : c.entries.get? (i + 1) with
        | none =>
          simp only [hg2] at h
          exact triv (Option.some.inj h).symm
        | some p =>
          simp only [hg2] at h
          split at h
          · injection h with h
            subst h
            refine ⟨?_, hbidx⟩
            rw [hj, head?_set_succ, head?_set_succ]
            exact hh
          · exact triv (Option.some.inj h).symm
      · exact triv (Option.some.inj h).symm
  | star i =>
    cases hg : c.entries.get? i with
    | none =>
      simp only [stepOp, starOp, hg] at h
      exact Option.noConfusion h
    | some e =>
      simp only [stepOp, starOp, hg] at h
      split at h
      · split at h
        · injection h with h
          subst h
          exact ⟨head_preserved_set c.entries i e _ hg rfl rfl hh, hbidx⟩
        · injection h with h
          subst h
          exact ⟨head_preserved_set c.entries i e _ hg rfl rfl hh, hbidx⟩
      · exact triv (Option.some.inj h).symm
  | remove i =>
    cases hg : c.entries.get? i with
    | none =>
      simp only [stepOp, removeOp, hg] at h
      exact Option.noConfusion h
    | some e =>
      have hilen : i < c.entries.length := by
        rcases List.get?_eq_some.mp hg with ⟨hlt, _⟩
        exact hlt
      simp only [stepOp, removeOp, hg] at h
      split at h
      · rename_i hboot
        obtain ⟨j, hj⟩ : ∃ j, i = j + 1 :=
          ⟨i - 1, by have := hne0boot e i hg hboot; omega⟩
        have hlen2 : 2 ≤ c.entries.length := by omega
        split at h
        · -- un-remove branch
          injection h with h
          subst h
          refine ⟨?_, hbidx⟩
          have hpne : (c.entries.set i { e with removed := false }).eraseIdx i ≠ [] := by
            apply List.ne_nil_of_length_pos
            rw [List.length_eraseIdx]
            simp only [List.length_set]
            rw [if_pos hilen]
            omega
          have hri := restoreInsertPos_ge
            (c.entries.set i { e with removed := false }) c.boot_idx i hbidx
            (by rw [List.length_set]; omega)
          have hpos : 1 ≤ (if i < restoreInsertPos
                (c.entries.set i { e with removed := false }) c.boot_idx i
              then restoreInsertPos
                (c.entries.set i { e with removed := false }) c.boot_idx i - 1
              else restoreInsertPos
                (c.entries.set i { e with removed := false }) c.boot_idx i) := by
            have h1i : 1 ≤ i := by omega
            split <;> omega
          rw [head?_insertIdx_pos _ _ _ hpos hpne]
          rw [hj, head?_eraseIdx_succ, head?_set_succ]
          exact hh
        · -- mark-removed branch
          injection h with h
          subst h
          refine ⟨?_, hbidx⟩
          have herase : (c.entries.eraseIdx i).head? = c.entries.head? := by
            rw [hj, head?_eraseIdx_succ]
          have hne : c.entries.eraseIdx i ≠ [] := by
            apply List.ne_nil_of_length_pos
            rw [List.length_eraseIdx, if_pos hilen]
            omega
          rw [head?_append_left _ _ hne, herase]
          exact hh
      · exact triv (Option.some.inj h).symm
  | bootNext i =>
    cases hg : c.entries.get? i with
    | none =>
      simp only [stepOp, nextOp, hg] at h
      exact Option.noConfusion h
    | some e =>
      simp only [stepOp, nextOp, hg] at h
      split at h
      · cases hb : ((c.entries.filter (fun b => b.is_boot)).map (fun b => b.ident)) with
        | nil =>
          simp only [hb] at h
          exact triv (Option.some.inj h).symm
        | cons b0 bs =>
          simp only [hb] at h
          split at h
          · injection h with h
            subst h
            exact ⟨head_preserved_set c.entries i e _ hg rfl rfl hh, hbidx⟩
          · exact Option.noConfusion h
      · split at h
        · cases hent : c.entries with
          | nil =>
            simp only [hent] at h
            exact Option.noConfusion h
          | cons e0 rest =>
            simp only [hent] at h
            injection h with h
            subst h
            refine ⟨?_, hbidx⟩
            rcases hh with ⟨e0', h0, hbn, hib0⟩
            rw [hent] at h0
            injection h0 with h0
            subst h0
            exact ⟨_, rfl, hbn, hib0⟩
        · exact triv (Option.some.inj h).symm
  | tag i a =>
    cases hg : c.entries.get? i with
    | none =>
      simp only [stepOp, tagOp, hg] at h
      exact Option.noConfusion h
    | some e =>
      simp only [stepOp, tagOp, hg] at h
      split at h
      · split at h
        · exact triv (Option.some.inj h).symm
        · split at h
          · injection h with h
            subst h
            exact ⟨head_preserved_set c.entries i e _ hg rfl rfl hh, hbidx⟩
          · exact triv (Option.some.inj h).symm
      · exact triv (Option.some.inj h).symm
  | modTimeout i a =>
    cases hg : c.entries.get? i with
    | none =>
      simp only [stepOp, modTimeoutOp, hg] at h
      exact Option.noConfusion h
    | some e =>
      simp only [stepOp, modTimeoutOp, hg] at h
      split at h
      · cases hft : pyFirstToken e.label with
        | none =>
          simp only [hft] at h
          exact Option.noConfusion h
        | some tok =>
          simp only [hft] at h
          split at h
          · exact triv (Option.some.inj h).symm
          · split at h
            · injection h with h
              subst h
              exact ⟨head_preserved_set c.entries i e _ hg rfl rfl hh, hbidx⟩
            · exact triv (Option.some.inj h).symm
      · exact triv (Option.some.inj h).symm

/-- The index-0 invariant is preserved along any run of mutation
operations. -/
theorem runOps_headBootNext (ops : List UserOp) (c c' : Config)
    (hrun : runOps c ops = some c') (hI : headBootNext c) : headBootNext c' := by
  induction ops generalizing c with
  | nil =>
    injection hrun with h
    subst h
    exact hI
  | cons op rest ih =>
    rcases Option.bind_eq_some.mp hrun with ⟨c1, h1, h2⟩
    exact ih c1 h2 (stepOp_headBootNext c c1 op h1 hI)

/-- **C10.**  In every table produced by a load and along every sequence of
mutation operations, the next-boot system field occupies index 0: the loader
seeds it first and overwrites it in place, no mutation moves a boot option
above the system prefix, and label edits at index 0 keep its identity. -/
theorem C10_bootnext_occupies_index_zero
    (sysUuids : List (String × String)) (lines : List String)
    (tbl : List BootEntry) (idx : Nat) (ops : List UserOp) (c : Config)
    (hdig : digest_boots sysUuids lines = some (tbl, idx))
    (hrun : runOps (initConfig tbl idx) ops = some c) :
    ∃ e0, c.entries.head? = some e0 ∧ e0.ident = "BootNext:" ∧
      e0.is_boot = false := by
  have hInit : headBootNext (initConfig tbl idx) := by
    rcases digest_boots_eq sysUuids lines tbl idx hdig with ⟨bo, _, hInv, htbl, hidx⟩
    constructor
    · obtain ⟨lbl, hhead⟩ := hInv.head_bn
      refine ⟨{ ident := "BootNext:", label := lbl }, ?_, rfl, rfl⟩
      show tbl.head? = _
      rw [htbl, List.append_assoc, head?_append_left _ _ hInv.rv_ne]
      exact hhead
    · show 1 ≤ idx
      rw [hidx]
      have hne := hInv.rv_ne
      cases hcase : (("BootNext: ---" :: lines).foldl (digestLine sysUuids)
          ⟨[], none, []⟩).rv with
      | nil => exact absurd hcase hne
      | cons x t => simp [hcase]
  exact (runOps_headBootNext ops (initConfig tbl idx) c hrun hInit).1

/-- Witness for C10: after loading a concrete table and performing a removal
and an active-toggle, the `BootNext:` field is still the first entry. -/
theorem C10_bootnext_occupies_index_zero_witness :
    ∃ e0, cfgW10.entries.head? = some e0 ∧ e0.ident = "BootNext:" ∧
      e0.is_boot = false :=
  C10_bootnext_occupies_index_zero [] linesW1 tblW1 idxW1
    [UserOp.remove 3, UserOp.star 2] cfgW10 rfl rfl

theorem get?_insertIdx_lt {α : Type} (l : List α) (x : α) :
    ∀ (n k : Nat), k < n → (l.insertIdx n x).get? k = l.get? k := by
  induction l with
  | nil =>
    intro n k hk
    cases n with
    | zero => omega
    | succ m => rfl
  | cons hd t ih =>
    intro n k hk
    cases n with
    | zero => omega
    | succ m =>
      rw [List.insertIdx_succ_cons]
      cases k with
      | zero => rfl
      | succ j =>
        show (List.insertIdx m x t).get? j = t.get? j
        exact ih m j (by omega)

theorem get?_insertIdx_self' {α : Type} (l : List α) (x : α) :
    ∀ (n : Nat), n ≤ l.length → (l.insertIdx n x).get? n = some x := by
  induction l with
  | nil =>
    intro n hn
    have : n = 0 := by simpa using hn
    subst this
    rfl
  | cons hd t ih =>
    intro n hn
    cases n with
    | zero => rfl
    | succ m =>
      rw [List.insertIdx_succ_cons]
      show (List.insertIdx m x t).get? m = some x
      exact ih m (by simpa using hn)

theorem get?_insertIdx_gt {α : Type} (l : List α) (x : α) :
    ∀ (n k : Nat), n < k → k ≤ l.length → (l.insertIdx n x).get? k = l.get? (k - 1) := by
  induction l with
  | nil =>
    intro n k hn hk
    simp only [List.length_nil] at hk
    omega
  | cons hd t ih =>
    intro n k hn hk
    cases n with
    | zero =>
      rw [List.insertIdx_zero]
      obtain ⟨j, rfl⟩ : ∃ j, k = j + 1 := ⟨k - 1, by omega⟩
      rfl
    | succ m =>
      rw [List.insertIdx_succ_cons]
      obtain ⟨j, rfl⟩ : ∃ j, k = j + 1 := ⟨k - 1, by omega⟩
      show (List.insertIdx m x t).get? j = (hd :: t).get? j
      rw [ih m j (by omega) (by simpa using hk)]
      obtain ⟨j2, rfl⟩ : ∃ j2, j = j2 + 1 := ⟨j - 1, by omega⟩
      rfl

theorem get?_eraseIdx {α : Type} (l : List α) (i j : Nat) :
    (l.eraseIdx i).get? j = if j < i then l.get? j else l.get? (j + 1) := by
  simp only [List.get?_eq_getElem?, List.getElem?_eraseIdx]

theorem head?_filter_range (n : Nat) (p : Nat → Bool) (j : Nat)
    (h : ((List.range n).filter p).head? = some j) :
    j < n ∧ p j = true ∧ ∀ k, k < j → p k = false := by
  have hmem := mem_of_head?_eq_some h
  rcases List.mem_filter.mp hmem with ⟨hr, hp⟩
  have hjn := List.mem_range.mp hr
  refine ⟨hjn, hp, ?_⟩
  intro k hk
  by_contra hcon
  rw [Bool.not_eq_false] at hcon
  have hkmem : k ∈ (List.range n).filter p :=
    List.mem_filter.mpr ⟨List.mem_range.mpr (lt_trans hk hjn), hcon⟩
  have hpw : ((List.range n).filter p).Pairwise (· < ·) :=
    List.Pairwise.sublist (List.filter_sublist _) (List.pairwise_lt_range n)
  rcases hlist : (List.range n).filter p with _ | ⟨y, ys⟩
  · rw [hlist] at h
    exact Option.noConfusion h
  · rw [hlist] at h hkmem hpw
    injection h with h
    subst h
    rcases List.mem_cons.mp hkmem with rfl | hk2
    · exact absurd hk (lt_irrefl _)
    · have := (List.pairwise_cons.mp hpw).1 k hk2
      omega

theorem head?_filter_range_none (n : Nat) (p : Nat → Bool)
    (h : ((List.range n).filter p).head? = none) :
    ∀ k, k < n → p k = false := by
  intro k hk
  by_contra hcon
  rw [Bool.not_eq_false] at hcon
  have hkmem : k ∈ (List.range n).filter p :=
    List.mem_filter.mpr ⟨List.mem_range.mpr hk, hcon⟩
  rcases hlist : (List.range n).filter p with _ | ⟨y, ys⟩
  · rw [hlist] at hkmem
    exact absurd hkmem (List.not_mem_nil k)
  · rw [hlist] at h
    exact Option.noConfusion h

/-- Reduction of `removeOp` on a not-yet-removed boot entry (mark branch). -/
theorem removeOp_mark (c : Config) (i : Nat) (e : BootEntry)
    (hget : c.entries.get? i = some e) (hboot : e.is_boot = true)
    (hrm : e.removed = false) :
    removeOp c i = some { c with
      entries := c.entries.eraseIdx i ++ [{ e with removed := true }],
      mods := { c.mods with
        removes := setAdd c.mods.removes e.ident,
        actives := setDiscard c.mods.actives e.ident,
        inactives := setDiscard c.mods.inactives e.ident,
        order := true } } := by
  simp only [removeOp, hget, hboot, if_true, hrm, Bool.false_eq_true, if_false]

/-- Reduction of `removeOp` on a removed boot entry (restore branch). -/
theorem removeOp_restore (c : Config) (i : Nat) (e : BootEntry)
    (hget : c.entries.get? i = some e) (hboot : e.is_boot = true)
    (hrm : e.removed = true) :
    removeOp c i = some { c with
      entries := ((c.entries.set i { e with removed := false }).eraseIdx i).insertIdx
        (if i < restoreInsertPos (c.entries.set i { e with removed := false })
            c.boot_idx i
         then restoreInsertPos (c.entries.set i { e with removed := false })
            c.boot_idx i - 1
         else restoreInsertPos (c.entries.set i { e with removed := false })
            c.boot_idx i)
        { e with removed := false },
      mods := { c.mods with
        removes := setDiscard c.mods.removes e.ident,
        order := true } } := by
  simp only [removeOp, hget, hboot, if_true, hrm]

theorem set_concat_length {α : Type} (l : List α) (a b : α) :
    (l ++ [a]).set l.length b = l ++ [b] := by
  induction l with
  | nil => rfl
  | cons hd t ih =>
    show hd :: ((t ++ [a]).set t.length b) = hd :: (t ++ [b])
    rw [ih]

theorem eraseIdx_concat_length {α : Type} (l : List α) (a : α) :
    (l ++ [a]).eraseIdx l.length = l := by
  induction l with
  | nil => rfl
  | cons hd t ih =>
    show hd :: ((t ++ [a]).eraseIdx t.length) = hd :: t
    rw [ih]

theorem suffixRemoved_spec {l : List BootEntry} (h : suffixRemoved l = true) :
    ∀ j k f g, j ≤ k → l.get? j = some f → l.get? k = some g →
      f.removed = true → g.removed = true := by
  intro j k f g hjk hgj hgk hfr
  have hj : j < l.length := (List.get?_eq_some.mp hgj).1
  have hk : k < l.length := (List.get?_eq_some.mp hgk).1
  have h1 := List.all_eq_true.mp h j (List.mem_range.mpr hj)
  have h2 := List.all_eq_true.mp h1 k (List.mem_range.mpr hk)
  simp only [hgj, hgk] at h2
  rw [hfr, decide_eq_true hjk] at h2
  simpa using h2

theorem removedAreBoot_spec {l : List BootEntry} (h : removedAreBoot l = true) :
    ∀ f ∈ l, f.removed = true → f.is_boot = true := by
  intro f hf hfr
  have h1 := List.all_eq_true.mp h f hf
  rw [hfr] at h1
  simpa using h1

theorem bootsAfterIdx_spec {l : List BootEntry} {bootIdx : Nat}
    (h : bootsAfterIdx l bootIdx = true) :
    ∀ j f, l.get? j = some f → f.is_boot = true → bootIdx ≤ j := by
  intro j f hgj hfb
  have hj : j < l.length := (List.get?_eq_some.mp hgj).1
  have h1 := List.all_eq_true.mp h j (List.mem_range.mpr hj)
  simp only [hgj] at h1
  rw [hfb] at h1
  simpa using h1

/-- C6: removing a not-yet-removed boot option marks it `removed`, moves it to
the tail of the table (nothing is physically deleted: the length is
preserved), and adds its identifier to the pending-removals set; restoring it
from the tail clears the mark, removes the identifier from the
pending-removals set, and re-inserts the entry immediately before the first
remaining removed row (at the tail when none remains): in the resulting
table every row before the restored entry is un-removed and every row after
it is removed.  The hypotheses are the reachable-table invariants: removed
rows form a suffix, only boot rows are removed, and boot rows sit at
positions `≥ boot_idx`. -/
theorem C6_remove_then_restore
    (c c1 c2 : Config) (i : Nat) (e : BootEntry)
    (hget : c.entries.get? i = some e)
    (hboot : e.is_boot = true)
    (hrm : e.removed = false)
    (hsuffixb : suffixRemoved c.entries = true)
    (hrmbootb : removedAreBoot c.entries = true)
    (hbootposb : bootsAfterIdx c.entries c.boot_idx = true)
    (h1 : removeOp c i = some c1)
    (h2 : removeOp c1 (c.entries.length - 1) = some c2) :
    (c1.entries.length = c.entries.length ∧
      c1.entries.getLast? = some { e with removed := true } ∧
      e.ident ∈ c1.mods.removes) ∧
    (c2.entries.length = c.entries.length ∧
      e.ident ∉ c2.mods.removes ∧
      ∃ p, c2.entries.get? p = some { e with removed := false } ∧
        (∀ q f, q < p → c2.entries.get? q = some f → f.removed = false) ∧
        (∀ q f, p < q → c2.entries.get? q = some f → f.removed = true)) := by
  have hsuffix := suffixRemoved_spec hsuffixb
  have hrmboot := removedAreBoot_spec hrmbootb
  have hbootpos := bootsAfterIdx_spec hbootposb
  -- basic facts
  have hin : i < c.entries.length := (List.get?_eq_some.mp hget).1
  set n := c.entries.length with hn
  have hn1 : 1 ≤ n := by omega
  -- reduce the first removeOp
  rw [removeOp_mark c i e hget hboot hrm] at h1
  injection h1 with h1
  set l' := c.entries.eraseIdx i with hl'
  have hlen' : l'.length = n - 1 := by
    rw [hl', List.length_eraseIdx]
    simp [hin]
  set etag : BootEntry := { e with removed := true } with hetag
  have hc1e : c1.entries = l' ++ [etag] := by rw [← h1]
  have hc1b : c1.boot_idx = c.boot_idx := by rw [← h1]
  have hc1len : c1.entries.length = n := by
    rw [hc1e, List.length_append, hlen']
    simp
    omega
  -- part (A)
  have partA : c1.entries.length = c.entries.length ∧
      c1.entries.getLast? = some { e with removed := true } ∧
      e.ident ∈ c1.mods.removes := by
    refine ⟨hc1len, ?_, ?_⟩
    · rw [hc1e]
      exact List.getLast?_concat l'
    · rw [← h1]
      exact mem_setAdd.mpr (Or.inr rfl)
  refine ⟨partA, ?_⟩
  -- reduce the second removeOp (restore branch)
  have hget2 : c1.entries.get? (n - 1) = some etag := by
    rw [hc1e, ← hlen']
    exact List.get?_concat_length l' etag
  have hbt : etag.is_boot = true := hboot
  have hrt : etag.removed = true := rfl
  rw [removeOp_restore c1 (n - 1) etag hget2 hbt hrt] at h2
  injection h2 with h2
  set ef : BootEntry := { e with removed := false } with hef
  have hefeq : ({ etag with removed := false } : BootEntry) = ef := rfl
  have hset : c1.entries.set (n - 1) { etag with removed := false } = l' ++ [ef] := by
    rw [hefeq, hc1e, ← hlen']
    exact set_concat_length l' etag ef
  rw [hset, hc1b] at h2
  have herase : (l' ++ [ef]).eraseIdx (n - 1) = l' := by
    rw [← hlen']
    exact eraseIdx_concat_length l' ef
  rw [herase] at h2
  -- characterize the restore candidate predicate
  have hbi : c.boot_idx ≤ i := hbootpos i e hget hboot
  have hl'get : ∀ j, l'.get? j =
      if j < i then c.entries.get? j else c.entries.get? (j + 1) :=
    fun j => get?_eraseIdx c.entries i j
  have hlapp : (l' ++ [ef]).length = n := by
    rw [List.length_append, hlen']
    simp only [List.length_singleton]
    omega
  have hcand_of_removed : ∀ j f, j < n - 1 → l'.get? j = some f →
      f.removed = true →
      restoreCand (l' ++ [ef]) c.boot_idx (n - 1) j = true := by
    intro j f hj hgf hfr
    have hmem : f ∈ c.entries :=
      List.Sublist.mem (List.get?_mem hgf) (List.eraseIdx_sublist c.entries i)
    have hfb : f.is_boot = true := hrmboot f hmem hfr
    have hbj : c.boot_idx ≤ j := by
      by_cases hji : j < i
      · rw [hl'get j, if_pos hji] at hgf
        exact hbootpos j f hgf hfb
      · omega
    have hgapp : (l' ++ [ef]).get? j = some f := by
      have h5 : (l' ++ [ef]).get? j = l'.get? j :=
        List.get?_append (by rw [hlen']; omega)
      rw [h5]
      exact hgf
    have hgapp2 : (l' ++ [ef])[j]? = some f := by
      rw [← List.get?_eq_getElem?]
      exact hgapp
    simp [restoreCand, hgapp, hgapp2, hfb, hfr, hbj, Nat.ne_of_lt hj]
  have hremoved_of_cand : ∀ j,
      restoreCand (l' ++ [ef]) c.boot_idx (n - 1) j = true →
      j < n - 1 ∧ ∃ f, l'.get? j = some f ∧ f.removed = true := by
    intro j hc
    simp only [restoreCand, Bool.and_eq_true, decide_eq_true_eq] at hc
    obtain ⟨hbj, hm⟩ := hc
    cases hg : (l' ++ [ef]).get? j with
    | none =>
      rw [hg] at hm
      exact absurd hm (by simp)
    | some f =>
      rw [hg] at hm
      simp only [Bool.and_eq_true, decide_eq_true_eq] at hm
      obtain ⟨⟨hfb, hfr⟩, hjne⟩ := hm
      have hjlt : j < n := by
        have h6 := (List.get?_eq_some.mp hg).1
        rw [hlapp] at h6
        exact h6
      have hjn1 : j < n - 1 := by omega
      have h5 : (l' ++ [ef]).get? j = l'.get? j :=
        List.get?_append (by rw [hlen']; omega)
      rw [h5] at hg
      exact ⟨hjn1, f, hg, hfr⟩
  have hsuffix' : ∀ a b f g, a ≤ b → l'.get? a = some f →
      l'.get? b = some g → f.removed = true → g.removed = true := by
    intro a b f g hab hga hgb hfr
    rw [hl'get a] at hga
    rw [hl'get b] at hgb
    by_cases ha : a < i <;> by_cases hb : b < i
    · rw [if_pos ha] at hga
      rw [if_pos hb] at hgb
      exact hsuffix a b f g hab hga hgb hfr
    · rw [if_pos ha] at hga
      rw [if_neg hb] at hgb
      exact hsuffix a (b + 1) f g (by omega) hga hgb hfr
    · exact absurd (lt_of_le_of_lt hab hb) ha
    · rw [if_neg ha] at hga
      rw [if_neg hb] at hgb
      exact hsuffix (a + 1) (b + 1) f g (by omega) hga hgb hfr
  -- case on where the restore position lands
  cases hh : ((List.range (l' ++ [ef]).length).filter
      (restoreCand (l' ++ [ef]) c.boot_idx (n - 1))).head? with
  | none =>
    have hip : restoreInsertPos (l' ++ [ef]) c.boot_idx (n - 1) =
        (l' ++ [ef]).length := by
      simp only [restoreInsertPos, hh]
    rw [hip, hlapp] at h2
    rw [if_pos (by omega : n - 1 < n)] at h2
    have hc2e : c2.entries = l' ++ [ef] := by
      rw [← h2]
      show l'.insertIdx (n - 1) ef = l' ++ [ef]
      rw [← hlen']
      exact List.insertIdx_length_self l' ef
    have hnone := head?_filter_range_none _ _ hh
    rw [hlapp] at hnone
    refine ⟨by rw [hc2e, hlapp], ?_, n - 1, ?_, ?_, ?_⟩
    · intro hcon
      rw [← h2] at hcon
      have hcon2 := mem_setDiscard.mp hcon
      exact hcon2.2 rfl
    · rw [hc2e, ← hlen']
      exact List.get?_concat_length l' ef
    · intro q f hq hgq
      rw [hc2e] at hgq
      have h5 : (l' ++ [ef]).get? q = l'.get? q :=
        List.get?_append (by rw [hlen']; omega)
      rw [h5] at hgq
      cases hfr : f.removed with
      | false => rfl
      | true =>
        have hc := hcand_of_removed q f hq hgq hfr
        rw [hnone q (by omega)] at hc
        exact Bool.noConfusion hc
    · intro q f hq hgq
      have h6 := (List.get?_eq_some.mp hgq).1
      rw [hc2e, hlapp] at h6
      omega
  | some j0 =>
    rw [hlapp] at hh
    obtain ⟨hj0n, hcand0, hmin0⟩ := head?_filter_range n _ j0 hh
    obtain ⟨hj0n1, f0, hgf0, hf0r⟩ := hremoved_of_cand j0 hcand0
    have hip : restoreInsertPos (l' ++ [ef]) c.boot_idx (n - 1) = j0 := by
      simp only [restoreInsertPos, hlapp, hh]
    rw [hip] at h2
    rw [if_neg (by omega : ¬ n - 1 < j0)] at h2
    have hc2e : c2.entries = l'.insertIdx j0 ef := by rw [← h2]
    have hc2len : c2.entries.length = n := by
      rw [hc2e, List.length_insertIdx j0 l' (by rw [hlen']; omega), hlen']
      omega
    refine ⟨hc2len, ?_, j0, ?_, ?_, ?_⟩
    · intro hcon
      rw [← h2] at hcon
      have hcon2 := mem_setDiscard.mp hcon
      exact hcon2.2 rfl
    · rw [hc2e]
      exact get?_insertIdx_self' l' ef j0 (by rw [hlen']; omega)
    · intro q f hq hgq
      rw [hc2e, get?_insertIdx_lt l' ef j0 q hq] at hgq
      cases hfr : f.removed with
      | false => rfl
      | true =>
        have hc := hcand_of_removed q f (by omega) hgq hfr
        rw [hmin0 q hq] at hc
        exact Bool.noConfusion hc
    · intro q f hq hgq
      have h6 := (List.get?_eq_some.mp hgq).1
      rw [hc2len] at h6
      rw [hc2e, get?_insertIdx_gt l' ef j0 q hq (by rw [hlen']; omega)] at hgq
      exact hsuffix' j0 (q - 1) f0 f (by omega) hgf0 hgq hf0r

theorem C6_remove_then_restore_witness :
    (suffixRemoved cfgW6.entries = true ∧
     removeOp cfgW6 2 = some cfgW6a ∧
     removeOp cfgW6a (cfgW6.entries.length - 1) = some cfgW6b) ∧
    ((cfgW6a.entries.length = cfgW6.entries.length ∧
      cfgW6a.entries.getLast? = some { eW6 with removed := true } ∧
      eW6.ident ∈ cfgW6a.mods.removes) ∧
     (cfgW6b.entries.length = cfgW6.entries.length ∧
      eW6.ident ∉ cfgW6b.mods.removes ∧
      ∃ p, cfgW6b.entries.get? p = some { eW6 with removed := false } ∧
        (∀ q f, q < p → cfgW6b.entries.get? q = some f → f.removed = false) ∧
        (∀ q f, p < q → cfgW6b.entries.get? q = some f → f.removed = true))) :=
  ⟨⟨by decide, rfl, rfl⟩,
   C6_remove_then_restore cfgW6 cfgW6a cfgW6b 2 eW6 rfl rfl rfl
     (by decide) (by decide) (by decide) rfl rfl⟩

theorem nextOp_cycleState_step (c : Config) (e0 : BootEntry)
    (rest : List BootEntry) (lab : String) (nx : Option String)
    (b0 nid : String) (tl : List String)
    (hid : e0.ident = "BootNext:") (hib : e0.is_boot = false)
    (hB : (rest.filter (fun b => b.is_boot)).map (fun b => b.ident) = b0 :: tl)
    (hnid : (if decide (some lab = original_next c) || lab = "---" then some b0
             else if lab ∈ b0 :: tl then
               if (b0 :: tl).indexOf lab + 1 < (b0 :: tl).length
               then (b0 :: tl).get? ((b0 :: tl).indexOf lab + 1)
               else original_next c
             else some b0) = some nid) :
    nextOp (cycleState c e0 rest lab nx) 0 =
      some (cycleState c e0 rest nid
        (if decide (some nid ≠ original_next c) then some nid else none)) := by
  have horig : original_next (cycleState c e0 rest lab nx) = original_next c := rfl
  have hget0 : (cycleState c e0 rest lab nx).entries.get? 0 =
      some { e0 with label := lab } := rfl
  have hfb : ({ e0 with label := lab } : BootEntry).is_boot = false := hib
  have hfilter : (cycleState c e0 rest lab nx).entries.filter (fun b => b.is_boot) =
      rest.filter (fun b => b.is_boot) := by
    show List.filter (fun b => b.is_boot) ({ e0 with label := lab } :: rest) =
      rest.filter (fun b => b.is_boot)
    rw [List.filter_cons_of_neg]
    simp [hib]
  simp only [nextOp, hget0, hfilter, horig, hB]
  rw [if_pos (show ({ e0 with label := lab } : BootEntry).ident = "BootNext:" from hid)]
  simp only [hnid]
  rfl

theorem indexOf_of_get? {l : List String} (hn : l.Nodup) :
    ∀ k b, l.get? k = some b → l.indexOf b = k := by
  induction l with
  | nil =>
    intro k b h
    exact Option.noConfusion h
  | cons hd t ih =>
    intro k b h
    cases k with
    | zero =>
      injection h with h
      subst h
      exact List.indexOf_cons_self hd t
    | succ j =>
      have hbt : b ∈ t := List.get?_mem h
      have hne : hd ≠ b := by
        intro hcon
        subst hcon
        exact (List.nodup_cons.mp hn).1 hbt
      rw [List.indexOf_cons_ne t hne, ih (List.nodup_cons.mp hn).2 j b h]

theorem cycle_chain (c : Config) (e0 : BootEntry) (rest : List BootEntry)
    (v b0 : String) (tl : List String)
    (hid : e0.ident = "BootNext:") (hib : e0.is_boot = false)
    (hB : (rest.filter (fun b => b.is_boot)).map (fun b => b.ident) = b0 :: tl)
    (horig : original_next c = some v)
    (hv : v ∉ b0 :: tl) (hdash : "---" ∉ b0 :: tl)
    (hnodup : (b0 :: tl).Nodup) :
    ∀ m k b nx, (b0 :: tl).get? k = some b → m + k = (b0 :: tl).length →
      iterOpt (fun cf => nextOp cf 0) m (cycleState c e0 rest b nx) =
        some (cycleState c e0 rest v none) := by
  intro m
  induction m with
  | zero =>
    intro k b nx hk hm
    have := (List.get?_eq_some.mp hk).1
    omega
  | succ m ih =>
    intro k b nx hk hm
    have hbB : b ∈ b0 :: tl := List.get?_mem hk
    have hbv : b ≠ v := fun hcon => hv (hcon ▸ hbB)
    have hbd : b ≠ "---" := fun hcon => hdash (hcon ▸ hbB)
    have hidx : (b0 :: tl).indexOf b = k := indexOf_of_get? hnodup k b hk
    have hcond : (decide (some b = original_next c) || decide (b = "---")) = false := by
      rw [horig]
      simp [hbv, hbd]
    cases m with
    | zero =>
      -- wrap step: k is the last index
      have hklast : k + 1 = (b0 :: tl).length := by omega
      have hstep := nextOp_cycleState_step c e0 rest b nx b0 v tl hid hib hB
        (by
          rw [hcond, if_neg (by simp), if_pos hbB, hidx,
            if_neg (by omega), horig])
      show ((nextOp (cycleState c e0 rest b nx) 0).bind
        (iterOpt (fun cf => nextOp cf 0) 0)) = some (cycleState c e0 rest v none)
      rw [hstep]
      have hnone : (if decide (some v ≠ original_next c) then some v else none) =
          none := by
        rw [horig]
        simp
      rw [hnone]
      rfl
    | succ m2 =>
      -- middle step: advance to the successor identifier
      have hk1 : k + 1 < (b0 :: tl).length := by omega
      obtain ⟨b', hb'⟩ : ∃ b', (b0 :: tl).get? (k + 1) = some b' := by
        cases hg : (b0 :: tl).get? (k + 1) with
        | none =>
          have := List.get?_eq_none.mp hg
          omega
        | some x => exact ⟨x, rfl⟩
      have hb'B : b' ∈ b0 :: tl := List.get?_mem hb'
      have hb'v : b' ≠ v := fun hcon => hv (hcon ▸ hb'B)
      have hstep := nextOp_cycleState_step c e0 rest b nx b0 b' tl hid hib hB
        (by rw [hcond, if_neg (by simp), if_pos hbB, hidx, if_pos hk1, hb'])
      show ((nextOp (cycleState c e0 rest b nx) 0).bind
        (iterOpt (fun cf => nextOp cf 0) (m2 + 1))) =
        some (cycleState c e0 rest v none)
      rw [hstep]
      exact ih (k + 1) b' _ hb' (by omega)

/-- C7 (amended): when the `BootNext:` row's current label `v` equals the
original snapshot value and `v` is not itself a boot identifier (nor `---`
a boot identifier, with distinct identifiers), cycling the next-boot field
`N + 1` times (with `N` the number of boot options) returns the label to `v`
and clears the pending next-boot override. -/
theorem C7_cycle_next_roundtrip
    (c : Config) (e0 : BootEntry) (rest : List BootEntry) (v : String)
    (hentries : c.entries = e0 :: rest)
    (hid : e0.ident = "BootNext:")
    (hib : e0.is_boot = false)
    (hlab : e0.label = v)
    (horig : original_next c = some v)
    (hv : v ∉ bootIdents c)
    (hdash : "---" ∉ bootIdents c)
    (hnodup : (bootIdents c).Nodup)
    (hne : bootIdents c ≠ []) :
    ∃ cr, iterOpt (fun cf => nextOp cf 0) ((bootIdents c).length + 1) c =
        some cr ∧
      (cr.entries.get? 0).map (fun x => x.label) = some v ∧
      cr.mods.next = none := by
  have hBc : bootIdents c =
      (rest.filter (fun b => b.is_boot)).map (fun b => b.ident) := by
    rw [bootIdents, hentries, List.filter_cons_of_neg]
    simp [hib]
  obtain ⟨b0, tl, hBtl⟩ : ∃ b0 tl,
      (rest.filter (fun b => b.is_boot)).map (fun b => b.ident) = b0 :: tl := by
    cases hcase : (rest.filter (fun b => b.is_boot)).map (fun b => b.ident) with
    | nil =>
      rw [hBc, hcase] at hne
      exact absurd rfl hne
    | cons x xs => exact ⟨x, xs, rfl⟩
  rw [hBc, hBtl] at hv hdash hnodup
  have he0 : ({ e0 with label := v } : BootEntry) = e0 := by rw [← hlab]
  have hc : c = cycleState c e0 rest v c.mods.next := by
    show c = { c with
      entries := { e0 with label := v } :: rest,
      mods := { c.mods with next := c.mods.next } }
    rw [he0, ← hentries]
  have hb0v : b0 ≠ v := fun hcon => hv (hcon ▸ List.mem_cons_self b0 tl)
  have hstep1 := nextOp_cycleState_step c e0 rest v c.mods.next b0 b0 tl
    hid hib hBtl (by rw [horig]; simp)
  have hnxB : (if decide (some b0 ≠ original_next c) then some b0 else none) =
      some b0 := by
    rw [horig]
    simp [hb0v]
  have hchain := cycle_chain c e0 rest v b0 tl hid hib hBtl horig hv hdash hnodup
    ((b0 :: tl).length) 0 b0 (some b0) rfl (by omega)
  refine ⟨cycleState c e0 rest v none, ?_, rfl, rfl⟩
  rw [hBc, hBtl]
  have hstep1' : nextOp c 0 = some (cycleState c e0 rest b0 (some b0)) := by
    conv_lhs => rw [hc]
    rw [hstep1, hnxB]
  show (nextOp c 0).bind (iterOpt (fun cf => nextOp cf 0) (b0 :: tl).length) =
    some (cycleState c e0 rest v none)
  rw [hstep1']
  exact hchain

/-- C7 counterexample to the unamended claim: a snapshot whose `BootNext:`
value `0002` is itself a boot identifier.  The table has `N = 2` boot
options and the field holds the original value, yet after `N + 1 = 3`
cycle steps the label is `0001` (not the original `0002`) and a pending
override `some "0001"` remains (not cleared). -/
theorem C7_cycle_next_roundtrip_counterexample :
    (cfgW7.entries.get? 0).map (fun x => x.label) = original_next cfgW7 ∧
    (bootIdents cfgW7).length = 2 ∧
    (iterOpt (fun cf => nextOp cf 0) 3 cfgW7).map
      (fun k => ((k.entries.get? 0).map (fun x => x.label), k.mods.next)) =
      some (some "0001", some "0001") ∧
    original_next cfgW7 = some "0002" := by
  refine ⟨rfl, rfl, ?_, rfl⟩
  rfl

theorem C7_cycle_next_roundtrip_witness :
    (original_next cfgW7b = some "---" ∧ "---" ∉ bootIdents cfgW7b ∧
      (bootIdents cfgW7b).length = 2) ∧
    ∃ cr, iterOpt (fun cf => nextOp cf 0) ((bootIdents cfgW7b).length + 1)
        cfgW7b = some cr ∧
      (cr.entries.get? 0).map (fun x => x.label) = some "---" ∧
      cr.mods.next = none :=
  ⟨⟨rfl, by decide, rfl⟩,
   C7_cycle_next_roundtrip cfgW7b e0W7 restW7 "---" rfl rfl rfl rfl rfl
     (by decide) (by decide) (by decide) (by decide)⟩

/-- C8: whenever the pending change set is dirty, the synthesizer emits
exactly the spec's command list: removals, activations, deactivations,
relabels, reordering (only if the reorder flag is set, listing the final
non-removed boot-option identifier sequence), next-boot and timeout (each
only if set to a truthy value), with the literal flag strings of the spec. -/
theorem C8_write_command_synthesis (c : Config) (h : dirtyState c = true) :
    write_cmds c = specWriteCmds c := by
  unfold write_cmds
  rw [h]
  rfl

theorem C8_write_command_synthesis_witness :
    dirtyState cfgW8 = true ∧
    write_cmds cfgW8 = specWriteCmds cfgW8 ∧
    write_cmds cfgW8 =
      ["sudo efibootmgr --quiet --delete-bootnum --bootnum 0005",
       "sudo efibootmgr --quiet --active --bootnum 0001",
       "sudo efibootmgr --quiet --inactive --bootnum 0002",
       "sudo efibootmgr --quiet --bootnum 0002 --label \"New Label\"",
       "sudo efibootmgr --quiet --bootorder 0001,0002",
       "sudo efibootmgr --quiet --bootnext 0004",
       "sudo efibootmgr --quiet --timeout 7"] :=
  ⟨by decide, C8_write_command_synthesis cfgW8 (by decide), by decide⟩

theorem modTimeoutOp_digits (c : Config) (i : Nat) (e : BootEntry)
    (answer tk : String)
    (hget : c.entries.get? i = some e)
    (hid : e.ident = "Timeout:")
    (htk : pyFirstToken e.label = some tk)
    (hne : pyStrip answer ≠ "")
    (hdig : (pyStrip answer).toList.all (fun ch => ch.isDigit) = true) :
    modTimeoutOp c i answer = some { c with
      entries := c.entries.set i
        { e with label := pyStrip answer ++ " seconds" },
      mods := { c.mods with timeout := some (pyStrip answer) } } := by
  have hcond : (decide (pyStrip answer ≠ "") &&
      (pyStrip answer).toList.all (fun ch => ch.isDigit)) = true := by
    rw [hdig]
    simp [hne]
  simp only [modTimeoutOp, hget]
  rw [if_pos hid]
  simp only [htk]
  rw [if_neg hne, if_pos hcond]

theorem modTimeoutOp_reject (c : Config) (i : Nat) (e : BootEntry)
    (answer tk : String)
    (hget : c.entries.get? i = some e)
    (hid : e.ident = "Timeout:")
    (htk : pyFirstToken e.label = some tk)
    (hbad : pyStrip answer = "" ∨
      (pyStrip answer).toList.all (fun ch => ch.isDigit) = false) :
    modTimeoutOp c i answer = some c := by
  simp only [modTimeoutOp, hget]
  rw [if_pos hid]
  simp only [htk]
  rcases hbad with hemp | hnd
  · rw [if_pos hemp]
  · by_cases hemp : pyStrip answer = ""
    · rw [if_pos hemp]
    · have hcond : (decide (pyStrip answer ≠ "") &&
          (pyStrip answer).toList.all (fun ch => ch.isDigit)) = false := by
        rw [hnd]
        simp
      rw [if_neg hemp, if_neg]
      rw [hcond]
      simp

/-- C9: on the `Timeout:` system row (whose label has a leading token), a
stripped all-digit input `n` rewrites the label to `"n seconds"` and records
`n` as the pending numeric override, and the timeout dirty category is then
true iff `n` differs from the leading numeric token of the snapshot's
original timeout label; empty or non-numeric input leaves the state
unchanged, and re-entering the original value leaves the category clean. -/
theorem C9_set_timeout (c : Config) (i : Nat) (e : BootEntry) (answer : String)
    (hget : c.entries.get? i = some e)
    (hid : e.ident = "Timeout:")
    (htok : (pyFirstToken e.label).isSome = true) :
    ((pyStrip answer ≠ "" ∧
      (pyStrip answer).toList.all (fun ch => ch.isDigit) = true) →
      modTimeoutOp c i answer = some { c with
        entries := c.entries.set i
          { e with label := pyStrip answer ++ " seconds" },
        mods := { c.mods with timeout := some (pyStrip answer) } } ∧
      timeout_changed { c with
        entries := c.entries.set i
          { e with label := pyStrip answer ++ " seconds" },
        mods := { c.mods with timeout := some (pyStrip answer) } } =
        decide (some (pyStrip answer) ≠ original_timeout_val c)) ∧
    ((pyStrip answer = "" ∨
      (pyStrip answer).toList.all (fun ch => ch.isDigit) = false) →
      modTimeoutOp c i answer = some c) ∧
    ((pyStrip answer ≠ "" ∧
      (pyStrip answer).toList.all (fun ch => ch.isDigit) = true ∧
      original_timeout_val c = some (pyStrip answer)) →
      ∃ c', modTimeoutOp c i answer = some c' ∧ timeout_changed c' = false) := by
  obtain ⟨tk, htk⟩ := Option.isSome_iff_exists.mp htok
  refine ⟨?_, ?_, ?_⟩
  · intro ⟨hne, hdig⟩
    refine ⟨modTimeoutOp_digits c i e answer tk hget hid htk hne hdig, rfl⟩
  · exact modTimeoutOp_reject c i e answer tk hget hid htk
  · intro ⟨hne, hdig, hval⟩
    refine ⟨_, modTimeoutOp_digits c i e answer tk hget hid htk hne hdig, ?_⟩
    show decide (some (pyStrip answer) ≠ original_timeout_val _) = false
    rw [show original_timeout_val { c with
      entries := c.entries.set i
        { e with label := pyStrip answer ++ " seconds" },
      mods := { c.mods with timeout := some (pyStrip answer) } } =
      original_timeout_val c from rfl, hval]
    simp

theorem C9_set_timeout_witness :
    modTimeoutOp cfgW9 0 "abc" = some cfgW9 ∧
    (∃ c', modTimeoutOp cfgW9 0 "5" = some c' ∧
      timeout_changed c' = false) :=
  ⟨(C9_set_timeout cfgW9 0 eW9 "abc" rfl rfl rfl).2.1 (Or.inr (by decide)),
   (C9_set_timeout cfgW9 0 eW9 "5" rfl rfl rfl).2.2
     ⟨by decide, by decide, by decide⟩⟩

theorem foldl_digestLine_keys (sysUuids : List (String × String))
    (ls : List String) :
    ∀ st : DigState,
      ((ls.foldl (digestLine sysUuids) st).boots.map Prod.fst) =
        (parsedBootIdents ls).foldl insKey (st.boots.map Prod.fst) := by
  induction ls with
  | nil => intro st; rfl
  | cons l rest ih =>
    intro st
    rw [List.foldl_cons, ih (digestLine sysUuids st l)]
    have hsplit : parsedBootIdents (l :: rest) =
        (match pySplitMax1 l with
         | [key, _] =>
           if key = "BootOrder:" then none
           else
             match matchBoot l with
             | none => none
             | some m => some m.ident
         | _ => none).toList ++ parsedBootIdents rest := by
      unfold parsedBootIdents
      rw [List.filterMap_cons]
      cases hm : (match pySplitMax1 l with
         | [key, _] =>
           if key = "BootOrder:" then none
           else
             match matchBoot l with
             | none => none
             | some m => some m.ident
         | _ => none) with
      | none => rfl
      | some k => rfl
    rw [hsplit]
    cases hps : pySplitMax1 l with
    | nil =>
      simp only [digestLine, hps]
      rfl
    | cons a rest2 =>
      cases rest2 with
      | nil =>
        simp only [digestLine, hps]
        rfl
      | cons b rest3 =>
        cases rest3 with
        | cons x xs =>
          simp only [digestLine, hps]
          rfl
        | nil =>
          by_cases hbo : a = "BootOrder:"
          · simp only [digestLine, hps, hbo, if_pos rfl]
            rfl
          · cases hmb : matchBoot l with
            | none =>
              simp only [digestLine, hps, if_neg hbo, hmb]
              split
              · rfl
              · rfl
            | some m =>
              simp only [digestLine, hps, if_neg hbo, hmb]
              have hstep : ((some m.ident).toList ++ parsedBootIdents rest) =
                  m.ident :: parsedBootIdents rest := rfl
              rw [hstep, List.foldl_cons]
              have hmem : (st.boots.any (fun p => p.1 = m.ident)) = true ↔
                  m.ident ∈ st.boots.map Prod.fst := by
                rw [List.any_eq_true]
                constructor
                · rintro ⟨p, hp, hpe⟩
                  exact List.mem_map.mpr ⟨p, hp, by simpa using hpe⟩
                · intro hk
                  rcases List.mem_map.mp hk with ⟨p, hp, hpe⟩
                  exact ⟨p, hp, by simpa using hpe⟩
              congr 1
              rw [updateBoots_keys]
              unfold insKey
              split
              · rename_i hany
                rw [if_pos (hmem.mp hany)]
              · rename_i hany
                rw [if_neg (fun hc => hany (hmem.mpr hc))]

theorem foldl_insKey_eq (ps : List String) :
    ∀ acc : List String,
      ps.foldl insKey acc =
        acc ++ (dedupFirst ps).filter (fun y => decide (y ∉ acc)) := by
  induction ps with
  | nil =>
    intro acc
    simp [dedupFirst]
  | cons x xs ih =>
    intro acc
    rw [List.foldl_cons, ih (insKey acc x)]
    show insKey acc x ++ _ = acc ++ (x :: (dedupFirst xs).filter
      (fun y => decide (y ≠ x))).filter (fun y => decide (y ∉ acc))
    unfold insKey
    by_cases hx : x ∈ acc
    · rw [if_pos hx, List.filter_cons_of_neg (by simp [hx])]
      congr 1
      rw [List.filter_filter]
      apply List.filter_congr
      intro y _
      by_cases hyx : y = x
      · subst hyx
        simp [hx]
      · simp [hyx]
    · rw [if_neg hx, List.filter_cons_of_pos (by simp [hx]),
        List.append_assoc, List.singleton_append]
      congr 1
      rw [List.filter_filter]
      congr 1
      apply List.filter_congr
      intro y _
      by_cases hyx : y = x
      · subst hyx
        simp
      · simp [hyx, List.mem_append]

theorem stFold_keys (sysUuids : List (String × String)) (lines : List String) :
    (stFold sysUuids lines).boots.map Prod.fst =
      dedupFirst (parsedBootIdents lines) := by
  unfold stFold
  rw [List.foldl_cons, seed_state,
    foldl_digestLine_keys sysUuids lines ⟨[{ ident := "BootNext:", label := "---" }], none, []⟩]
  rw [show (DigState.mk [{ ident := "BootNext:", label := "---" }] none
    []).boots.map Prod.fst = ([] : List String) from rfl]
  rw [foldl_insKey_eq]
  rw [List.nil_append]
  apply List.filter_eq_self.mpr
  intro y _
  simp

theorem map_fst_filter_key (l : List (String × BootEntry)) (p : String → Bool) :
    (l.filter (fun q => p q.1)).map Prod.fst = (l.map Prod.fst).filter p := by
  induction l with
  | nil => rfl
  | cons q t ih =>
    by_cases hq : p q.1 = true
    · simp [List.filter_cons, hq, ih]
    · simp [List.filter_cons, hq, ih]

theorem find?_filter_ne (l : List (String × BootEntry)) (id id' : String)
    (h : id' ≠ id) :
    (l.filter (fun q => decide (q.1 ≠ id))).find? (fun p => p.1 = id') =
      l.find? (fun p => p.1 = id') := by
  induction l with
  | nil => rfl
  | cons p t ih =>
    rw [List.filter_cons, List.find?_cons]
    by_cases hp : p.1 = id
    · have hp2 : (decide (p.1 = id')) = false := by
        have : ¬ p.1 = id' := by
          intro hc
          apply h
          rw [← hc, hp]
        simp [this]
      rw [if_neg (by simp [hp]), hp2, ih]
    · rw [if_pos (by simp [hp]), List.find?_cons]
      by_cases hp' : p.1 = id'
      · rw [show (decide (p.1 = id')) = true by simp [hp']]
      · rw [show (decide (p.1 = id')) = false by simp [hp'], ih]

theorem applyBootOrder_spec (ol : List String) :
    ∀ boots : List (String × BootEntry),
      (∀ p ∈ boots, p.2.ident = p.1) → ol.Nodup →
      ((applyBootOrder ol boots).1.map (fun e => e.ident) =
        ol.filter (fun id => decide (id ∈ boots.map Prod.fst))) ∧
      ((applyBootOrder ol boots).2 =
        boots.filter (fun p => decide (p.1 ∉ ol))) := by
  induction ol with
  | nil =>
    intro boots hwf hol
    refine ⟨rfl, ?_⟩
    show boots = _
    symm
    apply List.filter_eq_self.mpr
    intro p _
    simp
  | cons id rest ih =>
    intro boots hwf hol
    have hid_rest : id ∉ rest := (List.nodup_cons.mp hol).1
    simp only [applyBootOrder]
    cases hf : boots.find? (fun p => p.1 = id) with
    | none =>
      have hno : ∀ p ∈ boots, p.1 ≠ id := by
        intro p hp
        have := List.find?_eq_none.mp hf p hp
        simpa using this
      have hnomem : id ∉ boots.map Prod.fst := by
        intro hc
        rcases List.mem_map.mp hc with ⟨p, hp, hpe⟩
        exact hno p hp hpe
      obtain ⟨h1, h2⟩ := ih boots hwf (List.nodup_cons.mp hol).2
      refine ⟨?_, ?_⟩
      · rw [h1, List.filter_cons_of_neg (by simp [hnomem])]
      · rw [h2]
        apply List.filter_congr
        intro p hp
        have := hno p hp
        simp [List.mem_cons, this]
    | some p =>
      have hpmem : p ∈ boots := List.mem_of_find?_eq_some hf
      have hpid : p.1 = id := by
        have := List.find?_some hf
        simpa using this
      have hwf' : ∀ q ∈ boots.filter (fun q => decide (q.1 ≠ id)),
          q.2.ident = q.1 :=
        fun q hq => hwf q (List.mem_of_mem_filter hq)
      obtain ⟨h1, h2⟩ := ih (boots.filter (fun q => decide (q.1 ≠ id))) hwf'
        (List.nodup_cons.mp hol).2
      have hmemid : id ∈ boots.map Prod.fst :=
        List.mem_map.mpr ⟨p, hpmem, hpid⟩
      refine ⟨?_, ?_⟩
      · rw [List.map_cons, h1, List.filter_cons_of_pos (by simp [hmemid])]
        have hident : p.2.ident = id := by rw [hwf p hpmem, hpid]
        rw [hident]
        congr 1
        apply List.filter_congr
        intro y hy
        have hyne : y ≠ id := fun hc => hid_rest (hc ▸ hy)
        simp [map_fst_filter_key, List.mem_filter, hyne]
      · rw [h2, List.filter_filter]
        apply List.filter_congr
        intro q _
        by_cases hq : q.1 = id
        · simp [List.mem_cons, hq]
        · simp [List.mem_cons, hq]

/-- C5: on every successful parse whose declared order list has distinct
identifiers, the boot-option suffix of the built table is exactly the
order-list identifiers that were parsed (in declared order, absent ones
silently skipped) followed by the remaining parsed identifiers in encounter
order; the suffix has no duplicates and is a permutation of the full set of
identifiers parsed from the input, so nothing is lost or duplicated. -/
theorem C5_boot_suffix (sysUuids : List (String × String))
    (lines : List String) (tbl : List BootEntry) (idx : Nat) (bo : String)
    (h : digest_boots sysUuids lines = some (tbl, idx))
    (hbo : (stFold sysUuids lines).boot_order = some bo)
    (hol : (splitComma bo).Nodup) :
    ((tbl.drop idx).map (fun e => e.ident) =
      (splitComma bo).filter
        (fun id => decide (id ∈ dedupFirst (parsedBootIdents lines))) ++
      (dedupFirst (parsedBootIdents lines)).filter
        (fun id => decide (id ∉ splitComma bo))) ∧
    ((tbl.drop idx).map (fun e => e.ident)).Nodup ∧
    ((tbl.drop idx).map (fun e => e.ident)).Perm
      (dedupFirst (parsedBootIdents lines)) := by
  obtain ⟨bo', hbo', hInv, htbl, hidx⟩ := digest_boots_eq sysUuids lines tbl idx h
  have hst : (("BootNext: ---" :: lines).foldl (digestLine sysUuids)
      ⟨[], none, []⟩) = stFold sysUuids lines := rfl
  rw [hst] at hbo' htbl hidx hInv
  have hbo2 : some bo' = some bo := by rw [← hbo', ← hbo]
  injection hbo2 with hbo2
  subst hbo2
  have hdrop : tbl.drop idx =
      (applyBootOrder (splitComma bo') (stFold sysUuids lines).boots).1 ++
      (applyBootOrder (splitComma bo')
        (stFold sysUuids lines).boots).2.map Prod.snd := by
    rw [htbl, hidx, List.append_assoc, List.drop_left]
  have hwf1 : ∀ p ∈ (stFold sysUuids lines).boots, p.2.ident = p.1 :=
    fun p hp => (hInv.boots_wf p hp).1
  have hnd : ((stFold sysUuids lines).boots.map Prod.fst).Nodup :=
    hInv.boots_nodup
  obtain ⟨ha1, ha2⟩ :=
    applyBootOrder_spec (splitComma bo') (stFold sysUuids lines).boots hwf1 hol
  have hsub2 := (applyBootOrder_sub (splitComma bo')
    (stFold sysUuids lines).boots).2
  have hsuf : (tbl.drop idx).map (fun e => e.ident) =
      (splitComma bo').filter
        (fun id => decide (id ∈ (stFold sysUuids lines).boots.map Prod.fst)) ++
      ((stFold sysUuids lines).boots.map Prod.fst).filter
        (fun id => decide (id ∉ splitComma bo')) := by
    rw [hdrop, List.map_append, ha1]
    congr 1
    rw [List.map_map]
    have hcg : (applyBootOrder (splitComma bo')
        (stFold sysUuids lines).boots).2.map ((fun e => e.ident) ∘ Prod.snd) =
        (applyBootOrder (splitComma bo')
          (stFold sysUuids lines).boots).2.map Prod.fst := by
      apply List.map_congr_left
      intro p hp
      exact hwf1 p (hsub2 p hp)
    rw [hcg, ha2]
    exact map_fst_filter_key _ (fun id => decide (id ∉ splitComma bo'))
  have hkeys := stFold_keys sysUuids lines
  refine ⟨?_, ?_, ?_⟩
  · rw [hsuf, hkeys]
  · rw [hsuf]
    rw [List.nodup_append]
    refine ⟨List.Nodup.filter _ hol, List.Nodup.filter _ hnd, ?_⟩
    intro a ha1m ha2m
    have h1m := (List.mem_filter.mp ha1m).1
    have h2m := (List.mem_filter.mp ha2m).2
    rw [decide_eq_true_eq] at h2m
    exact h2m h1m
  · rw [hsuf, ← hkeys]
    have hperm1 : ((splitComma bo').filter
        (fun id => decide (id ∈ (stFold sysUuids lines).boots.map Prod.fst))).Perm
        (((stFold sysUuids lines).boots.map Prod.fst).filter
          (fun id => decide (id ∈ splitComma bo'))) := by
      apply List.perm_of_nodup_nodup_toFinset_eq
      · exact List.Nodup.filter _ hol
      · exact List.Nodup.filter _ hnd
      · apply Finset.ext
        intro a
        simp only [List.mem_toFinset, List.mem_filter, decide_eq_true_eq]
        exact ⟨fun ⟨x, y⟩ => ⟨y, x⟩, fun ⟨x, y⟩ => ⟨y, x⟩⟩
    have hperm2 : (((stFold sysUuids lines).boots.map Prod.fst).filter
          (fun id => decide (id ∈ splitComma bo')) ++
        ((stFold sysUuids lines).boots.map Prod.fst).filter
          (fun id => decide (id ∉ splitComma bo'))).Perm
        ((stFold sysUuids lines).boots.map Prod.fst) := by
      have hcg : ((stFold sysUuids lines).boots.map Prod.fst).filter
          (fun id => decide (id ∉ splitComma bo')) =
          ((stFold sysUuids lines).boots.map Prod.fst).filter
          (fun id => !(decide (id ∈ splitComma bo'))) := by
        apply List.filter_congr
        intro a _
        simp
      rw [hcg]
      exact List.filter_append_perm _ _
    exact (List.Perm.append_right _ hperm1).trans hperm2

theorem C5_boot_suffix_witness :
    (digest_boots [] linesW5 = some (tblW5, idxW5) ∧
      (stFold [] linesW5).boot_order = some "0002,0009" ∧
      (tblW5.drop idxW5).map (fun e => e.ident) = ["0002", "0001"] ∧
      dedupFirst (parsedBootIdents linesW5) = ["0001", "0002"]) ∧
    ((tblW5.drop idxW5).map (fun e => e.ident) =
      (splitComma "0002,0009").filter
        (fun id => decide (id ∈ dedupFirst (parsedBootIdents linesW5))) ++
      (dedupFirst (parsedBootIdents linesW5)).filter
        (fun id => decide (id ∉ splitComma "0002,0009"))) ∧
    ((tblW5.drop idxW5).map (fun e => e.ident)).Nodup ∧
    ((tblW5.drop idxW5).map (fun e => e.ident)).Perm
      (dedupFirst (parsedBootIdents linesW5)) :=
  ⟨⟨rfl, rfl, rfl, rfl⟩,
   C5_boot_suffix [] linesW5 tblW5 idxW5 "0002,0009" rfl rfl (by decide)⟩
